import Mathlib

/-!
Verification of the graphijs core (`src/graphs-package/Graph.js` and
`src/graphs-package/index.js`) against its specification.

Embedding conventions:
* JS objects used as dictionaries are association lists with unique keys;
  `obj[k] = v` updates in place or appends, `delete obj[k]` removes the binding.
* JS numeric object keys (the node ids) are enumerated by `Object.keys` and
  `for..in` in ascending numeric order, per the ECMAScript ordinary
  own-property-keys order for array-index keys.  This matters for
  `connectedWith` and `nodes`.
* JS numbers are idealized as exact rationals `ℚ`; the special values
  `NaN`, `Infinity`, `-Infinity` and non-number values are modelled by the
  `JSNumber`/`JSValue` types where the source can receive them (the `weight`
  argument of `addLink`).  Dijkstra's `Infinity` distances are `⊤ : WithTop ℚ`.
* `Set` objects are lists without duplicates in insertion order.
-/

namespace Graphijs

/-- Lookup in a JS-object association list (first binding wins; bindings are
unique in every reachable state). -/
def jsGet {κ α : Type} [DecidableEq κ] : List (κ × α) → κ → Option α
  | [], _ => none
  | (k, v) :: rest, q => if k = q then some v else jsGet rest q

/-- Assignment `obj[k] = v`: update the existing binding in place, or append a
new binding. -/
def jsSet {κ α : Type} [DecidableEq κ] : List (κ × α) → κ → α → List (κ × α)
  | [], q, v => [(q, v)]
  | (k, w) :: rest, q, v =>
      if k = q then (k, v) :: rest else (k, w) :: jsSet rest q v

/-- Property deletion `delete obj[k]`. -/
def jsDelete {κ α : Type} [DecidableEq κ] : List (κ × α) → κ → List (κ × α)
  | [], _ => []
  | (k, w) :: rest, q =>
      if k = q then jsDelete rest q else (k, w) :: jsDelete rest q

/-- The keys of a JS object. -/
def jsKeys {κ α : Type} (m : List (κ × α)) : List κ := m.map Prod.fst

@[simp] theorem jsGet_nil {κ α : Type} [DecidableEq κ] (q : κ) :
    jsGet ([] : List (κ × α)) q = none := rfl

@[simp] theorem jsGet_cons {κ α : Type} [DecidableEq κ] (k : κ) (v : α)
    (rest : List (κ × α)) (q : κ) :
    jsGet ((k, v) :: rest) q = if k = q then some v else jsGet rest q := rfl

theorem jsGet_jsSet_self {κ α : Type} [DecidableEq κ] (m : List (κ × α)) (k : κ) (v : α) :
    jsGet (jsSet m k v) k = some v := by
  induction m with
  | nil => simp [jsSet]
  | cons hd tl ih =>
      obtain ⟨k', v'⟩ := hd
      by_cases h : k' = k <;> simp [jsSet, h, ih]

theorem jsGet_jsSet_ne {κ α : Type} [DecidableEq κ] (m : List (κ × α)) (k q : κ) (v : α)
    (h : k ≠ q) : jsGet (jsSet m k v) q = jsGet m q := by
  induction m with
  | nil => simp [jsSet, h]
  | cons hd tl ih =>
      obtain ⟨k', v'⟩ := hd
      by_cases h' : k' = k
      · subst h'; simp [jsSet, h]
      · simp [jsSet, h', ih]

theorem jsGet_jsDelete_self {κ α : Type} [DecidableEq κ] (m : List (κ × α)) (k : κ) :
    jsGet (jsDelete m k) k = none := by
  induction m with
  | nil => simp [jsDelete]
  | cons hd tl ih =>
      obtain ⟨k', v'⟩ := hd
      by_cases h : k' = k <;> simp [jsDelete, h, ih]

theorem jsGet_jsDelete_ne {κ α : Type} [DecidableEq κ] (m : List (κ × α)) (k q : κ)
    (h : k ≠ q) : jsGet (jsDelete m k) q = jsGet m q := by
  induction m with
  | nil => simp [jsDelete]
  | cons hd tl ih =>
      obtain ⟨k', v'⟩ := hd
      by_cases h' : k' = k
      · subst h'; simp [jsDelete, h, ih]
      · simp [jsDelete, h', ih]

theorem jsGet_isSome_iff_mem {κ α : Type} [DecidableEq κ] (m : List (κ × α)) (q : κ) :
    (jsGet m q).isSome ↔ q ∈ jsKeys m := by
  induction m with
  | nil => simp [jsKeys]
  | cons hd tl ih =>
      obtain ⟨k', v'⟩ := hd
      by_cases h : k' = q
      · subst h; simp [jsKeys]
      · have h' : ¬q = k' := fun he => h he.symm
        simp [jsKeys, h, h'] at *
        exact ih

theorem jsGet_eq_none_iff {κ α : Type} [DecidableEq κ] (m : List (κ × α)) (q : κ) :
    jsGet m q = none ↔ q ∉ jsKeys m := by
  rw [← jsGet_isSome_iff_mem]
  cases jsGet m q <;> simp

theorem jsGet_mem {κ α : Type} [DecidableEq κ] {m : List (κ × α)} {q : κ} {v : α}
    (h : jsGet m q = some v) : (q, v) ∈ m := by
  induction m with
  | nil => simp [jsGet] at h
  | cons hd tl ih =>
      obtain ⟨k', v'⟩ := hd
      by_cases hk : k' = q
      · subst hk
        simp [jsGet] at h
        simp [h]
      · simp [jsGet, hk] at h
        exact List.mem_cons_of_mem _ (ih h)

theorem mem_jsGet {κ α : Type} [DecidableEq κ] {m : List (κ × α)} {q : κ} {v : α}
    (hnd : (jsKeys m).Nodup) (h : (q, v) ∈ m) : jsGet m q = some v := by
  induction m with
  | nil => simp at h
  | cons hd tl ih =>
      obtain ⟨k', v'⟩ := hd
      simp [jsKeys] at hnd
      rcases List.mem_cons.mp h with h1 | h1
      · obtain ⟨rfl, rfl⟩ := Prod.mk.injEq .. ▸ h1
        simp [jsGet]
      · have hne : k' ≠ q := by
          intro he; subst he
          exact hnd.1 v (by simpa using h1)
        simp [jsGet, hne]
        exact ih hnd.2 h1

theorem jsKeys_jsSet {κ α : Type} [DecidableEq κ] (m : List (κ × α)) (k : κ) (v : α) :
    jsKeys (jsSet m k v) = if k ∈ jsKeys m then jsKeys m else jsKeys m ++ [k] := by
  induction m with
  | nil => simp [jsSet, jsKeys]
  | cons hd tl ih =>
      obtain ⟨k', v'⟩ := hd
      by_cases h : k' = k
      · subst h; simp [jsSet, jsKeys]
      · have h' : ¬k = k' := fun he => h he.symm
        simp only [jsSet, jsKeys, h, if_false, List.map_cons, List.mem_cons, h', false_or]
        rw [show jsKeys (jsSet tl k v) = List.map Prod.fst (jsSet tl k v) from rfl] at ih
        rw [ih]
        by_cases hm : k ∈ List.map Prod.fst tl <;> simp [hm, jsKeys]

theorem jsKeys_jsDelete_sublist {κ α : Type} [DecidableEq κ] (m : List (κ × α)) (k : κ) :
    List.Sublist (jsKeys (jsDelete m k)) (jsKeys m) := by
  induction m with
  | nil => simp [jsDelete, jsKeys]
  | cons hd tl ih =>
      obtain ⟨k', v'⟩ := hd
      by_cases h : k' = k
      · subst h
        simpa [jsDelete, jsKeys] using ih.cons _
      · simpa [jsDelete, jsKeys, h] using ih.cons₂ k'

theorem mem_jsKeys_jsDelete {κ α : Type} [DecidableEq κ] {m : List (κ × α)} {k q : κ}
    (h : q ∈ jsKeys (jsDelete m k)) : q ∈ jsKeys m :=
  (jsKeys_jsDelete_sublist m k).mem h

theorem jsKeys_jsDelete_nodup {κ α : Type} [DecidableEq κ] {m : List (κ × α)} (k : κ)
    (h : (jsKeys m).Nodup) : (jsKeys (jsDelete m k)).Nodup :=
  (jsKeys_jsDelete_sublist m k).nodup h

theorem jsKeys_jsSet_nodup {κ α : Type} [DecidableEq κ] {m : List (κ × α)} (k : κ) (v : α)
    (h : (jsKeys m).Nodup) : (jsKeys (jsSet m k v)).Nodup := by
  rw [jsKeys_jsSet]
  by_cases hm : k ∈ jsKeys m
  · simpa [hm]
  · simp [hm, List.nodup_append, h]

theorem mem_jsSet_elim {κ α : Type} [DecidableEq κ] {m : List (κ × α)} {k : κ} {v : α}
    {p : κ × α} (h : p ∈ jsSet m k v) : p ∈ m ∨ p = (k, v) := by
  induction m with
  | nil => simp [jsSet] at h; simp [h]
  | cons hd tl ih =>
      obtain ⟨k', v'⟩ := hd
      by_cases hk : k' = k
      · subst hk
        simp [jsSet] at h
        rcases h with h | h
        · right; simp [h]
        · left; simp [h]
      · simp [jsSet, hk] at h
        rcases h with h | h
        · left; simp [h]
        · rcases ih h with h1 | h1
          · left; simp [h1]
          · right; exact h1

theorem mem_jsDelete_elim {κ α : Type} [DecidableEq κ] {m : List (κ × α)} {k : κ}
    {p : κ × α} (h : p ∈ jsDelete m k) : p ∈ m := by
  induction m with
  | nil => simp [jsDelete] at h
  | cons hd tl ih =>
      obtain ⟨k', v'⟩ := hd
      by_cases hk : k' = k
      · subst hk
        simp [jsDelete] at h
        exact List.mem_cons_of_mem _ (ih h)
      · simp [jsDelete, hk] at h
        rcases h with h | h
        · simp [h]
        · exact List.mem_cons_of_mem _ (ih h)

/-- Ascending enumeration of the numeric own-property keys of a JS object whose
keys are array indices, as produced by `Object.keys` and `for..in`. -/
def sortedKeys {α : Type} (m : List (Nat × α)) : List Nat :=
  List.insertionSort (· ≤ ·) (jsKeys m)

theorem sortedKeys_perm {α : Type} (m : List (Nat × α)) :
    List.Perm (sortedKeys m) (jsKeys m) :=
  List.perm_insertionSort _ _

theorem mem_sortedKeys {α : Type} (m : List (Nat × α)) (i : Nat) :
    i ∈ sortedKeys m ↔ i ∈ jsKeys m :=
  (sortedKeys_perm m).mem_iff

theorem sortedKeys_sorted {α : Type} (m : List (Nat × α)) :
    List.Sorted (· ≤ ·) (sortedKeys m) :=
  List.sorted_insertionSort _ _

/-- JS numbers: an exact finite value (idealized as a rational) or one of the
non-finite specials. -/
inductive JSNumber : Type where
  | finite (q : ℚ)
  | nan
  | infinity
  | negInfinity
deriving DecidableEq

/-- A JS value in an argument slot that may hold a number, `undefined`, or any
other (non-number) value. -/
inductive JSValue : Type where
  | undefined
  | number (x : JSNumber)
  | other
deriving DecidableEq

/-- The `isNaN(w) || typeof w !== "number" || !isFinite(w)` validation in
`addLink` fails (throws `TypeError`) exactly when the value is not a finite
number.  (Every non-number value trips either the `isNaN` coercion or the
`typeof` test.) -/
def JSValue.isFiniteNumber : JSValue → Bool
  | .number (.finite _) => true
  | _ => false

/-- The graph state: `src/graphs-package/Graph.js`, constructor. -/
structure Graph : Type where
  isDirected : Bool
  isWeighted : Bool
  counterId : Nat
  keyToIdTable : List (String × Nat)
  idToKeyTable : List (Nat × String)
  links : List (Nat × List (Nat × ℚ))
  mainNodes : List String
deriving DecidableEq

/-- `new Graph(isDirected, isWeighted)`. -/
def Graph.new (isDirected isWeighted : Bool) : Graph :=
  { isDirected := isDirected, isWeighted := isWeighted, counterId := 0,
    keyToIdTable := [], idToKeyTable := [], links := [], mainNodes := [] }

/-- The record returned by `type()`. -/
structure GraphType : Type where
  weighted : Bool
  directed : Bool
deriving DecidableEq

/-- `type()`. -/
def Graph.type (g : Graph) : GraphType :=
  { weighted := g.isWeighted, directed := g.isDirected }

/-- `hasNode(key)`. -/
def Graph.hasNode (g : Graph) (key : String) : Bool :=
  (jsGet g.keyToIdTable key).isSome

/-- `addNode(key)`: the updated graph and the returned boolean. -/
def Graph.addNode (g : Graph) (key : String) : Graph × Bool :=
  match jsGet g.keyToIdTable key with
  | some _ => (g, false)
  | none =>
      let id := g.counterId
      ({ g with counterId := id + 1,
                keyToIdTable := jsSet g.keyToIdTable key id,
                idToKeyTable := jsSet g.idToKeyTable id key,
                links := jsSet g.links id [] }, true)

/-- `hasLink(key1, key2)`.  When both keys are live the source reads
`this.links[id1][id2]`; in every reachable state a live id has a `links` row,
so the missing-row fallback below is never taken. -/
def Graph.hasLink (g : Graph) (key1 key2 : String) : Bool :=
  match jsGet g.keyToIdTable key1, jsGet g.keyToIdTable key2 with
  | some id1, some id2 =>
      match jsGet g.links id1 with
      | some row => (jsGet row id2).isSome
      | none => false
  | _, _ => false

/-- Result of `addLink`: either a normal return carrying the updated state and
the returned boolean, or a thrown `TypeError` carrying the state at the throw
site (the source throws before any mutation). -/
inductive AddLinkResult : Type where
  | ok (g : Graph) (returned : Bool)
  | thrown (g : Graph)
deriving DecidableEq

/-- The mutation performed by a successful `addLink` after validation: lazy
node creation, forward store, and the symmetric store for undirected graphs. -/
def Graph.addLinkStore (g : Graph) (key1 key2 : String) (w : ℚ) : Graph :=
  let g := (g.addNode key1).1
  let g := (g.addNode key2).1
  match jsGet g.keyToIdTable key1, jsGet g.keyToIdTable key2 with
  | some id1, some id2 =>
      let row1 := (jsGet g.links id1).getD []
      let g := { g with links := jsSet g.links id1 (jsSet row1 id2 w) }
      if !g.isDirected then
        let row2 := (jsGet g.links id2).getD []
        { g with links := jsSet g.links id2 (jsSet row2 id1 w) }
      else g
  | _, _ => g
    -- unreachable: `addNode` has just ensured both keys are present

/-- `addLink(key1, key2, weight)`.  Mirrors the source order: self-loop check,
existing-link check, weight defaulting (`!isWeighted || weight === undefined`),
finite-number validation (throws `TypeError`), then the store. -/
def Graph.addLink (g : Graph) (key1 key2 : String) (weight : JSValue) : AddLinkResult :=
  if key1 = key2 then .ok g false
  else if g.hasLink key1 key2 then .ok g false
  else
    let weight := if !g.isWeighted || weight = JSValue.undefined then
        JSValue.number (.finite 1) else weight
    match weight with
    | .number (.finite w) => .ok (g.addLinkStore key1 key2 w) true
    | _ => .thrown g

/-- `removeLink(key1, key2)`. -/
def Graph.removeLink (g : Graph) (key1 key2 : String) : Graph × Bool :=
  if !g.hasLink key1 key2 then (g, false)
  else
    match jsGet g.keyToIdTable key1, jsGet g.keyToIdTable key2 with
    | some id1, some id2 =>
        let g := { g with
          links := jsSet g.links id1 (jsDelete ((jsGet g.links id1).getD []) id2) }
        let g := if !g.isDirected then
            { g with
              links := jsSet g.links id2 (jsDelete ((jsGet g.links id2).getD []) id1) }
          else g
        (g, true)
    | _, _ => (g, false)
      -- unreachable: `hasLink` guarantees both keys are present

/-- `linkWeight(key1, key2)`: `undefined` is `none`. -/
def Graph.linkWeight (g : Graph) (key1 key2 : String) : Option ℚ :=
  if !g.hasLink key1 key2 then none
  else
    match jsGet g.keyToIdTable key1, jsGet g.keyToIdTable key2 with
    | some id1, some id2 => jsGet ((jsGet g.links id1).getD []) id2
    | _, _ => none

/-- `connectedWith(key)`: `undefined` for an unknown key, otherwise the row's
ids in ascending numeric order (`Object.keys` on numeric keys) translated
through `idToKeyTable`.  A dangling id (referencing a removed node) translates
to JS `undefined`, modelled as `none` in the returned list. -/
def Graph.connectedWith (g : Graph) (key : String) : Option (List (Option String)) :=
  match jsGet g.keyToIdTable key with
  | none => none
  | some id =>
      let row := (jsGet g.links id).getD []
      some ((sortedKeys row).map (fun j => jsGet g.idToKeyTable j))

/-- One iteration of the `removeNode` neighbour loop: remove the outgoing
link and, for directed graphs, the incoming link from that neighbour.  A
JS-`undefined` neighbour (dangling id) makes both `removeLink` calls no-ops. -/
def Graph.removeNodeStep (key : String) (g : Graph) : Option String → Graph
  | none => g
  | some nbKey =>
      let g := (g.removeLink key nbKey).1
      if g.isDirected then (g.removeLink nbKey key).1 else g

/-- `removeNode(key)`.  The neighbour list is snapshotted before the loop,
each neighbour is processed by `removeNodeStep`, then the node's row and both
identity mappings are deleted. -/
def Graph.removeNode (g : Graph) (key : String) : Graph × Bool :=
  if !g.hasNode key then (g, false)
  else
    let neighbours := (g.connectedWith key).getD []
    let g := neighbours.foldl (Graph.removeNodeStep key) g
    match jsGet g.keyToIdTable key with
    | none => (g, true)
      -- unreachable: the loop never deletes identity mappings
    | some id =>
        ({ g with links := jsDelete g.links id,
                  keyToIdTable := jsDelete g.keyToIdTable key,
                  idToKeyTable := jsDelete g.idToKeyTable id }, true)

/-- `nodes()`: `for..in` over `idToKeyTable` yields ids in ascending numeric
order; every enumerated id has a key. -/
def Graph.nodes (g : Graph) : List String :=
  (sortedKeys g.idToKeyTable).filterMap (fun i => jsGet g.idToKeyTable i)

/-- `setMainNode(key)` (`Set.prototype.add`: insertion order, no duplicates). -/
def Graph.setMainNode (g : Graph) (key : String) : Graph × Bool :=
  if g.hasNode key then
    ({ g with mainNodes :=
        if key ∈ g.mainNodes then g.mainNodes else g.mainNodes ++ [key] }, true)
  else (g, false)

/-- `getMainNodes()` (`Array.from` of a `Set`: insertion order). -/
def Graph.getMainNodes (g : Graph) : List String := g.mainNodes

/-- `createGraph(isDirected, isWeighted)` returns a factory closure. -/
def createGraph (isDirected isWeighted : Bool) : Unit → Graph :=
  fun _ => Graph.new isDirected isWeighted

/-- `index.js`: `export const UndirectedUnweightedGraph = createGraph(false, true);`
(sic: the second argument in the source is `true`). -/
def UndirectedUnweightedGraph : Unit → Graph := createGraph false true

/-- `index.js`: `export const DirectedUnweightedGraph = createGraph(true, false);` -/
def DirectedUnweightedGraph : Unit → Graph := createGraph true false

/-- `index.js`: `export const DirectedWeightedGraph = createGraph(true, true);` -/
def DirectedWeightedGraph : Unit → Graph := createGraph true true

/-- `index.js`: `export const UndirectedWeightedGraph = createGraph(false, true);` -/
def UndirectedWeightedGraph : Unit → Graph := createGraph false true

/-! ### Dijkstra (`dijkstra(startKey, endKey)`)

Distances live in `WithTop ℚ`; `⊤` plays the role of JS `Infinity` and also of
the `NaN`/`undefined` values that can arise from arithmetic on a missing
lookup — in every such case the JS comparison `alt < distances[neighbor]`
is false, exactly as `⊤ < d` is false here. -/

/-- Distance lookup `distances[k]`; a missing key (JS `undefined`) behaves
like `⊤` in every comparison the algorithm performs. -/
def dGet (m : List (String × WithTop ℚ)) (k : String) : WithTop ℚ :=
  (jsGet m k).getD ⊤

/-- `this.linkWeight(current, neighbor)` as used in the relaxation sum:
an absent link (`undefined`) poisons the sum to a never-smaller value. -/
def Graph.wGet (g : Graph) (k1 k2 : String) : WithTop ℚ :=
  match g.linkWeight k1 k2 with
  | some w => (w : WithTop ℚ)
  | none => ⊤

/-- Mutable state of the Dijkstra loop. -/
structure DState : Type where
  distances : List (String × WithTop ℚ)
  previous : List (String × Option String)
  visited : List String
  queue : List String
deriving DecidableEq

/-- State after the initialization loops and `queue.push(startKey)`. -/
def dijkstraInit (g : Graph) (startKey : String) : DState :=
  let ns := g.nodes
  { distances := jsSet (ns.foldl (fun m n => jsSet m n ⊤) []) startKey 0,
    previous := ns.foldl (fun m n => jsSet m n none) [],
    visited := [],
    queue := [startKey] }

/-- `queue.sort((a, b) => distances[a] - distances[b])`: a stable sort by
current distance (ties in unspecified order per the spec; insertion sort is
stable, matching modern JS engines). -/
def sortQueue (m : List (String × WithTop ℚ)) (q : List String) : List String :=
  List.insertionSort (fun a b => dGet m a ≤ dGet m b) q

/-- Relaxation of a single neighbour inside the `for..of` loop. -/
def dijkstraRelax (g : Graph) (current : String) (st : DState) :
    Option String → DState
  | none => st
  | some neighbor =>
      if neighbor ∈ st.visited then st
      else
        let alt := dGet st.distances current + g.wGet current neighbor
        if alt < dGet st.distances neighbor then
          { st with
            distances := jsSet st.distances neighbor alt,
            previous := jsSet st.previous neighbor (some current),
            queue := if neighbor ∈ st.queue then st.queue
                     else st.queue ++ [neighbor] }
        else st

/-- The `while (queue.length > 0)` loop, fuel-indexed.  `dijkstra` supplies
fuel exceeding the loop's iteration count (each node is enqueued at most
once), so the fuel-exhaustion branch is never taken on well-formed graphs. -/
def dijkstraLoop (g : Graph) (endKey : String) : Nat → DState → DState
  | 0, st => st
  | fuel + 1, st =>
      match sortQueue st.distances st.queue with
      | [] => { st with queue := [] }
      | current :: rest =>
          let st := { st with queue := rest }
          if current ∈ st.visited then dijkstraLoop g endKey fuel st
          else
            let st := { st with visited := st.visited ++ [current] }
            if current = endKey then st
            else
              let st := match g.connectedWith current with
                | none => st
                | some neighbors => neighbors.foldl (dijkstraRelax g current) st
              dijkstraLoop g endKey fuel st

/-- The `while (current !== null)` path-reconstruction loop, fuel-indexed.
`none` models the JS loop never terminating (possible only when the chain
runs into an uninitialized `undefined` entry, which is proved not to occur
on well-formed graphs). -/
def buildPath (previous : List (String × Option String)) :
    Nat → String → List String → Option (List String)
  | 0, _, _ => none
  | fuel + 1, current, acc =>
      match jsGet previous current with
      | some (some u) => buildPath previous fuel u (current :: acc)
      | some none => some (current :: acc)
      | none => none

/-- `dijkstra(startKey, endKey)`: the returned `{path, distance}`. -/
def Graph.dijkstra (g : Graph) (startKey endKey : String) :
    List String × WithTop ℚ :=
  if !g.hasNode startKey || !g.hasNode endKey then ([], ⊤)
  else
    let st := dijkstraLoop g endKey (2 * g.nodes.length + 1)
        (dijkstraInit g startKey)
    match buildPath st.previous (g.nodes.length + 1) endKey [] with
    | none => ([], ⊤)
    | some path =>
        if path.head? ≠ some startKey then ([], ⊤)
        else (path, dGet st.distances endKey)

/-! ### All-paths enumeration (`findAllPaths(startKey, endKey)`)

The shared mutable state (the `visited` set and `path` buffer) is threaded
explicitly.  Note the source returns early when the entered node is the
target, without popping `path` or deleting from `visited`. -/

/-- The shared backtracking state. -/
structure FState : Type where
  visited : List String
  path : List String
deriving DecidableEq

/-- `Set.prototype.add`. -/
def setAdd (s : List String) (k : String) : List String :=
  if k ∈ s then s else s ++ [k]

/-- `findAllPaths(startKey, endKey, visited, path)`, fuel-indexed (the
recursion depth is bounded by the number of live nodes, so the fuel supplied
by `findAllPaths` is never exhausted on well-formed graphs). -/
def Graph.findAllPathsAux (g : Graph) (endKey : String) :
    Nat → String → FState → List (List String) × FState
  | 0, _, st => ([], st)
  | fuel + 1, startKey, st =>
      if !g.hasNode startKey || !g.hasNode endKey then ([], st)
      else
        let st : FState :=
          { visited := setAdd st.visited startKey, path := st.path ++ [startKey] }
        if startKey = endKey then ([st.path], st)
        else
          let res : List (List String) × FState :=
            match g.connectedWith startKey with
            | none => ([], st)
            | some neighbors =>
                neighbors.foldl (fun acc nb =>
                  match nb with
                  | none => acc
                  | some neighbor =>
                      if neighbor ∈ acc.2.visited then acc
                      else
                        let r := g.findAllPathsAux endKey fuel neighbor acc.2
                        (acc.1 ++ r.1, r.2)) ([], st)
          (res.1, { visited := res.2.visited.erase startKey,
                    path := res.2.path.dropLast })

/-- `findAllPaths(startKey, endKey)` with the default fresh `visited`/`path`. -/
def Graph.findAllPaths (g : Graph) (startKey endKey : String) :
    List (List String) :=
  (g.findAllPathsAux endKey (g.nodes.length + 1) startKey
    { visited := [], path := [] }).1

/-! ### Operation sequences and reachable states -/

/-- One mutating API call. -/
inductive Op : Type where
  | addNode (k : String)
  | addLink (k1 k2 : String) (w : JSValue)
  | removeLink (k1 k2 : String)
  | removeNode (k : String)
  | setMainNode (k : String)
deriving DecidableEq

/-- The state after one call (a thrown `addLink` leaves the state it threw
with, which equals the pre-call state). -/
def applyOp (g : Graph) : Op → Graph
  | .addNode k => (g.addNode k).1
  | .addLink k1 k2 w =>
      match g.addLink k1 k2 w with
      | .ok g' _ => g'
      | .thrown g' => g'
  | .removeLink k1 k2 => (g.removeLink k1 k2).1
  | .removeNode k => (g.removeNode k).1
  | .setMainNode k => (g.setMainNode k).1

/-- The state after a sequence of calls. -/
def runOps (g : Graph) (ops : List Op) : Graph := ops.foldl applyOp g

/-- States reachable from `new Graph(d, w)` by some sequence of API calls. -/
def ReachableFrom (d w : Bool) (g : Graph) : Prop :=
  ∃ ops : List Op, g = runOps (Graph.new d w) ops

/-! ### Structural invariants -/

/-- Well-formedness of the internal tables: unique bindings, the two id/key
maps are mutually inverse, every live id owns a `links` row, and every id in
the structure is below the counter.  All reachable states satisfy this. -/
structure WF (g : Graph) : Prop where
  k2iNodup : (jsKeys g.keyToIdTable).Nodup
  i2kNodup : (jsKeys g.idToKeyTable).Nodup
  linksNodup : (jsKeys g.links).Nodup
  rowsNodup : ∀ p ∈ g.links, (jsKeys p.2).Nodup
  k2i_i2k : ∀ p ∈ g.keyToIdTable, jsGet g.idToKeyTable p.2 = some p.1
  i2k_k2i : ∀ p ∈ g.idToKeyTable, jsGet g.keyToIdTable p.2 = some p.1
  links_live : ∀ p ∈ g.links, p.1 ∈ jsKeys g.idToKeyTable
  live_links : ∀ p ∈ g.idToKeyTable, p.1 ∈ jsKeys g.links
  idsLt : ∀ p ∈ g.idToKeyTable, p.1 < g.counterId
  linksLt : ∀ p ∈ g.links, p.1 < g.counterId ∧ ∀ q ∈ p.2, q.1 < g.counterId

/-- Every adjacency entry references a live node.  (The spec states this as
an invariant; `removeNode` on directed graphs actually violates it.) -/
def NoDangling (g : Graph) : Prop :=
  ∀ p ∈ g.links, ∀ q ∈ p.2, q.1 ∈ jsKeys g.idToKeyTable

/-- All stored edge weights are non-negative. -/
def NonnegWeights (g : Graph) : Prop :=
  ∀ p ∈ g.links, ∀ q ∈ p.2, 0 ≤ q.2

/-- All stored edge weights equal the unit weight. -/
def UnitWeights (g : Graph) : Prop :=
  ∀ p ∈ g.links, ∀ q ∈ p.2, q.2 = 1

/-- The stored weight at cell `[i][j]` of a raw adjacency table. -/
def tableAt (L : List (Nat × List (Nat × ℚ))) (i j : Nat) : Option ℚ :=
  match jsGet L i with
  | some row => jsGet row j
  | none => none

/-- The stored weight of the adjacency cell `links[i][j]`. -/
def Graph.linkAt (g : Graph) (i j : Nat) : Option ℚ :=
  tableAt g.links i j

/-- Id-level symmetry of the adjacency structure. -/
def Symm (g : Graph) : Prop :=
  ∀ i j : Nat, g.linkAt i j = g.linkAt j i

/-- `a` was assigned a smaller id than `b`. -/
def Graph.keyIdLt (g : Graph) (a b : String) : Prop :=
  ∃ i j : Nat, jsGet g.keyToIdTable a = some i ∧
    jsGet g.keyToIdTable b = some j ∧ i < j

/-! ### Paths, for the shortest-path and all-paths specifications -/

/-- `p` is a path of links from `s` to `e` (at least one node; consecutive
nodes linked). -/
def Graph.isPath (g : Graph) (p : List String) (s e : String) : Prop :=
  p.head? = some s ∧ p.getLast? = some e ∧
    List.Chain' (fun a b => g.hasLink a b = true) p

/-- The sum of the stored weights along a node list (⊤-poisoned on a missing
link, which cannot happen on an actual path). -/
def Graph.pathWeight (g : Graph) : List String → WithTop ℚ
  | [] => 0
  | [_] => 0
  | a :: b :: rest => g.wGet a b + Graph.pathWeight g (b :: rest)

/-! ### Proof apparatus for the Dijkstra verification -/

/-- Termination measure for the Dijkstra loop: each unreached node (neither
visited nor queued) costs 2, each queue entry costs 1.  Every iteration
strictly decreases it (a push moves a node from the unreached set into the
queue). -/
def dMeasure (g : Graph) (st : DState) : Nat :=
  2 * ((g.nodes.toFinset \ st.visited.toFinset) \ st.queue.toFinset).card +
    st.queue.length

/-- Invariant fields needed after the loop exits (the frontier bound is
separate because the early `break` skips the relaxation of the target's
neighbours). -/
structure DBase (g : Graph) (s : String) (st : DState) : Prop where
  qNodup : st.queue.Nodup
  qLive : ∀ v ∈ st.queue, v ∈ g.nodes
  visLive : ∀ v ∈ st.visited, v ∈ g.nodes
  visNodup : st.visited.Nodup
  qVis : ∀ v ∈ st.queue, v ∉ st.visited
  sQV : s ∈ st.queue ∨ s ∈ st.visited
  sDist : dGet st.distances s = 0
  sPrev : jsGet st.previous s = some none
  prevDom : ∀ v ∈ g.nodes, (jsGet st.previous v).isSome
  inftyOut : ∀ v, v ∉ st.queue → v ∉ st.visited → dGet st.distances v = ⊤
  qFinite : ∀ v ∈ st.queue, dGet st.distances v ≠ ⊤
  visFinite : ∀ v ∈ st.visited, dGet st.distances v ≠ ⊤
  distNonneg : ∀ v, 0 ≤ dGet st.distances v
  prevSome : ∀ v u, jsGet st.previous v = some (some u) →
    g.hasLink u v = true ∧ u ∈ st.visited ∧
    dGet st.distances v = dGet st.distances u + g.wGet u v ∧
    (v ∈ st.queue ∨ v ∈ st.visited) ∧ v ≠ s ∧
    (v ∈ st.visited → st.visited.indexOf u < st.visited.indexOf v)
  vNotS : ∀ v, v ≠ s → v ∈ st.queue ∨ v ∈ st.visited →
    ∃ u, jsGet st.previous v = some (some u)
  visitedOpt : ∀ v ∈ st.visited, ∀ p, g.isPath p s v →
    dGet st.distances v ≤ g.pathWeight p

/-- The full loop invariant: `DBase` plus the frontier bound. -/
structure DInv (g : Graph) (s : String) (st : DState)
    extends DBase g s st : Prop where
  frontier : ∀ u ∈ st.visited, ∀ v, g.hasLink u v = true → v ∉ st.visited →
    dGet st.distances v ≤ dGet st.distances u + g.wGet u v

/-- The invariant holding while the neighbours of the just-visited node `c`
are being relaxed: `DBase`, plus the frontier bound restricted to the
previously visited nodes (for `c` itself the bound is only established once
the whole neighbour list has been folded). -/
structure MidInv (g : Graph) (s c : String) (st : DState)
    extends DBase g s st : Prop where
  cVis : c ∈ st.visited
  frontierP : ∀ u ∈ st.visited, u ≠ c → ∀ v, g.hasLink u v = true →
    v ∉ st.visited → dGet st.distances v ≤ dGet st.distances u + g.wGet u v

/-! ### Concrete states used by counterexamples and witnesses -/

/-- Three fresh nodes `a`, `b`, `c` (ids 0, 1, 2), then links created in the
order `c–b`, `c–a`: entry insertion order in `c`'s row is `b` before `a`. -/
def c5Graph : Graph :=
  runOps (Graph.new false false)
    [.addNode "a", .addNode "b", .addNode "c",
     .addLink "c" "b" JSValue.undefined, .addLink "c" "a" JSValue.undefined]

/-- Undirected triangle-ish graph: links `a–b`, `a–c`, `c–b`. -/
def c1Graph : Graph :=
  runOps (Graph.new false false)
    [.addLink "a" "b" JSValue.undefined, .addLink "a" "c" JSValue.undefined,
     .addLink "c" "b" JSValue.undefined]

/-- Directed graph with the single link `a → b`. -/
def c2Graph : Graph :=
  runOps (Graph.new true false) [.addLink "a" "b" JSValue.undefined]

/-- A small weighted directed graph used by witnesses: `s → m` (weight 2),
`m → t` (weight 3), `s → t` (weight 7). -/
def wGraph : Graph :=
  runOps (Graph.new true true)
    [.addLink "s" "m" (JSValue.number (.finite 2)),
     .addLink "m" "t" (JSValue.number (.finite 3)),
     .addLink "s" "t" (JSValue.number (.finite 7))]

/-- An undirected weighted graph with one link `a–b` (weight 3), for the C7
witness. -/
def c7Graph : Graph :=
  runOps (Graph.new false true) [.addLink "a" "b" (JSValue.number (.finite 3))]

/-- An unweighted graph whose single link was supplied with weight 5, for
the C8 witness. -/
def c8Graph : Graph :=
  runOps (Graph.new false false) [.addLink "a" "b" (JSValue.number (.finite 5))]

/-- A node `a` tagged as main, for the C9 witness. -/
def c9Graph : Graph :=
  runOps (Graph.new false false) [.addNode "a", .addNode "b",
    .addLink "a" "b" JSValue.undefined, .setMainNode "a"]

/-! ## Theorems -/

theorem removeLink_mainNodes (g : Graph) (k1 k2 : String) :
    ((g.removeLink k1 k2).1).mainNodes = g.mainNodes := by
  unfold Graph.removeLink
  split
  · rfl
  · split
    · cases hdir : !g.isDirected <;> simp [hdir]
    · rfl

theorem removeNodeStep_mainNodes (key : String) (g : Graph) (nb : Option String) :
    (Graph.removeNodeStep key g nb).mainNodes = g.mainNodes := by
  cases nb with
  | none => rfl
  | some nbKey =>
      show (if ((g.removeLink key nbKey).1).isDirected = true
          then (((g.removeLink key nbKey).1).removeLink nbKey key).1
          else (g.removeLink key nbKey).1).mainNodes = g.mainNodes
      split <;> simp [removeLink_mainNodes]

theorem removeNode_mainNodes (g : Graph) (k : String) :
    ((g.removeNode k).1).mainNodes = g.mainNodes := by
  unfold Graph.removeNode
  split
  · rfl
  · have hfold : ∀ (l : List (Option String)) (g0 : Graph),
        (l.foldl (Graph.removeNodeStep k) g0).mainNodes = g0.mainNodes := by
      intro l
      induction l with
      | nil => intro g0; rfl
      | cons hd tl ih =>
          intro g0
          simp only [List.foldl_cons, ih, removeNodeStep_mainNodes]
    dsimp only
    split <;> simp [hfold]

theorem addNode_mainNodes (g : Graph) (k : String) :
    ((g.addNode k).1).mainNodes = g.mainNodes := by
  unfold Graph.addNode
  split <;> rfl

/-- C9: `removeNode` never modifies `mainNodes`: a tagged key stays in
`getMainNodes()` after its node is successfully removed, and a re-added node
with the same key silently inherits the tag. -/
theorem c9_removeNode_keeps_mainNodes (g : Graph) (k : String)
    (hlive : g.hasNode k = true) (htag : k ∈ g.getMainNodes) :
    (g.removeNode k).2 = true ∧
    ((g.removeNode k).1).mainNodes = g.mainNodes ∧
    k ∈ ((g.removeNode k).1).getMainNodes ∧
    k ∈ ((((g.removeNode k).1).addNode k).1).getMainNodes := by
  refine ⟨?_, removeNode_mainNodes g k, ?_, ?_⟩
  · unfold Graph.removeNode
    simp only [hlive, Bool.not_true, Bool.false_eq_true, if_false]
    split <;> rfl
  · show k ∈ ((g.removeNode k).1).mainNodes
    rw [removeNode_mainNodes]
    exact htag
  · show k ∈ ((((g.removeNode k).1).addNode k).1).mainNodes
    rw [addNode_mainNodes, removeNode_mainNodes]
    exact htag

theorem WF.k2i_of_i2k {g : Graph} (hWF : WF g) {j : Nat} {k : String}
    (h : jsGet g.idToKeyTable j = some k) : jsGet g.keyToIdTable k = some j :=
  hWF.i2k_k2i _ (jsGet_mem h)

theorem WF.i2k_of_k2i {g : Graph} (hWF : WF g) {k : String} {j : Nat}
    (h : jsGet g.keyToIdTable k = some j) : jsGet g.idToKeyTable j = some k :=
  hWF.k2i_i2k _ (jsGet_mem h)

theorem map_some_of_all_isSome {α : Type} (l : List (Option α))
    (h : ∀ x ∈ l, x.isSome = true) : l = (l.filterMap id).map some := by
  induction l with
  | nil => rfl
  | cons hd tl ih =>
      cases hd with
      | none => exact absurd (h none (by simp)) (by simp)
      | some a =>
          have htl := ih (fun x hx => h x (List.mem_cons_of_mem _ hx))
          simp only [List.filterMap_cons, id, List.map_cons]
          exact congrArg (List.cons (some a)) htl

/-- Core of the C5 analysis: mapping a strictly ascending, non-dangling id
list through `idToKeyTable` yields keys in ascending id order whose members
are exactly the keys of those ids. -/
theorem ids_map_spec (g : Graph) (hWF : WF g) (ids : List Nat)
    (hsort : List.Sorted (· < ·) ids)
    (hlive : ∀ j ∈ ids, j ∈ jsKeys g.idToKeyTable) :
    ∃ nbs : List String,
      ids.map (fun j => jsGet g.idToKeyTable j) = nbs.map some ∧
      (∀ k2, k2 ∈ nbs ↔ ∃ j ∈ ids, jsGet g.idToKeyTable j = some k2) ∧
      List.Pairwise g.keyIdLt nbs := by
  induction ids with
  | nil =>
      refine ⟨[], rfl, ?_, List.Pairwise.nil⟩
      simp
  | cons j rest ih =>
      obtain ⟨nbs, heq, hmem, hpair⟩ := ih hsort.of_cons
        (fun x hx => hlive x (List.mem_cons_of_mem _ hx))
      have hj : j ∈ jsKeys g.idToKeyTable := hlive j (by simp)
      obtain ⟨kj, hkj⟩ : ∃ kj, jsGet g.idToKeyTable j = some kj := by
        have := (jsGet_isSome_iff_mem g.idToKeyTable j).mpr hj
        cases h : jsGet g.idToKeyTable j with
        | none => rw [h] at this; simp at this
        | some a => exact ⟨a, rfl⟩
      refine ⟨kj :: nbs, by simp [hkj, heq], ?_, ?_⟩
      · intro k2
        constructor
        · intro hk2
          rcases List.mem_cons.mp hk2 with h | h
          · exact ⟨j, by simp, h ▸ hkj⟩
          · obtain ⟨j', hj', hj'k⟩ := (hmem k2).mp h
            exact ⟨j', List.mem_cons_of_mem _ hj', hj'k⟩
        · rintro ⟨j', hj', hj'k⟩
          rcases List.mem_cons.mp hj' with h | h
          · subst h
            rw [hkj] at hj'k
            simp at hj'k
            simp [hj'k]
          · exact List.mem_cons_of_mem _ ((hmem k2).mpr ⟨j', h, hj'k⟩)
      · refine List.Pairwise.cons ?_ hpair
        intro kb hkb
        obtain ⟨j', hj', hj'k⟩ := (hmem kb).mp hkb
        exact ⟨j, j', hWF.k2i_of_i2k hkj, hWF.k2i_of_i2k hj'k,
          (List.sorted_cons.mp hsort).1 j' hj'⟩

/-- C5 (amended): `connectedWith(k)` is absent exactly when `k` is not a live
node, and otherwise returns precisely the keys reachable via one outgoing
hop — but in ascending order of their assigned ids (the `Object.keys`
enumeration of numeric keys), not in the insertion order of the link
entries. -/
theorem c5_connectedWith_spec (g : Graph) (hWF : WF g) (hND : NoDangling g)
    (k : String) :
    ((g.connectedWith k).isSome = true ↔ g.hasNode k = true) ∧
    (∀ l, g.connectedWith k = some l →
      ∃ nbs : List String, l = nbs.map some ∧
        (∀ k2, k2 ∈ nbs ↔ g.hasLink k k2 = true) ∧
        List.Pairwise g.keyIdLt nbs) := by
  constructor
  · unfold Graph.connectedWith Graph.hasNode
    cases jsGet g.keyToIdTable k <;> simp
  · intro l hl
    unfold Graph.connectedWith at hl
    cases hk : jsGet g.keyToIdTable k with
    | none => rw [hk] at hl; simp at hl
    | some i =>
        rw [hk] at hl
        simp only [Option.some.injEq] at hl
        subst hl
        obtain ⟨row, hrow⟩ : ∃ row, jsGet g.links i = some row := by
          have hi : i ∈ jsKeys g.links :=
            hWF.live_links _ (jsGet_mem (hWF.i2k_of_k2i hk))
          have := (jsGet_isSome_iff_mem g.links i).mpr hi
          cases h : jsGet g.links i with
          | none => rw [h] at this; simp at this
          | some r => exact ⟨r, rfl⟩
        have hnd : (jsKeys row).Nodup := hWF.rowsNodup _ (jsGet_mem hrow)
        have hsorted : List.Sorted (· < ·) (sortedKeys row) := by
          have h1 : List.Sorted (· ≤ ·) (sortedKeys row) := sortedKeys_sorted row
          have h2 : (sortedKeys row).Nodup := (sortedKeys_perm row).nodup_iff.mpr hnd
          exact h1.lt_of_le h2
        have hlive : ∀ j ∈ sortedKeys row, j ∈ jsKeys g.idToKeyTable := by
          intro j hj
          rw [mem_sortedKeys] at hj
          have : (jsGet row j).isSome = true := (jsGet_isSome_iff_mem row j).mpr hj
          cases hq : jsGet row j with
          | none => rw [hq] at this; simp at this
          | some w => exact hND _ (jsGet_mem hrow) _ (jsGet_mem hq)
        obtain ⟨nbs, heq, hmem, hpair⟩ := ids_map_spec g hWF _ hsorted hlive
        refine ⟨nbs, by rw [hrow]; simpa using heq, ?_, hpair⟩
        intro k2
        rw [hmem k2]
        constructor
        · rintro ⟨j, hj, hjk⟩
          have hk2 : jsGet g.keyToIdTable k2 = some j := hWF.k2i_of_i2k hjk
          unfold Graph.hasLink
          simp only [hk, hk2, hrow]
          rw [mem_sortedKeys] at hj
          exact (jsGet_isSome_iff_mem row j).mpr hj
        · intro hhl
          unfold Graph.hasLink at hhl
          cases hk2 : jsGet g.keyToIdTable k2 with
          | none =>
              simp only [hk, hk2] at hhl
              exact Bool.noConfusion hhl
          | some i2 =>
              simp only [hk, hk2, hrow] at hhl
              refine ⟨i2, ?_, hWF.i2k_of_k2i hk2⟩
              rw [mem_sortedKeys]
              exact (jsGet_isSome_iff_mem row i2).mp hhl

/-! ### Stability of fields under the operations -/

theorem mem_jsKeys_jsDelete_iff {κ α : Type} [DecidableEq κ] (m : List (κ × α))
    (k q : κ) :
    q ∈ jsKeys (jsDelete m k) ↔ q ∈ jsKeys m ∧ q ≠ k := by
  constructor
  · intro h
    refine ⟨mem_jsKeys_jsDelete h, ?_⟩
    rintro rfl
    have h1 : (jsGet (jsDelete m q) q).isSome = true :=
      (jsGet_isSome_iff_mem _ q).mpr h
    rw [jsGet_jsDelete_self] at h1
    simp at h1
  · rintro ⟨h, hne⟩
    rw [← jsGet_isSome_iff_mem] at h ⊢
    rwa [jsGet_jsDelete_ne m k q (fun he => hne he.symm)]

theorem removeLink_identity (g : Graph) (k1 k2 : String) :
    ((g.removeLink k1 k2).1).keyToIdTable = g.keyToIdTable ∧
    ((g.removeLink k1 k2).1).idToKeyTable = g.idToKeyTable ∧
    ((g.removeLink k1 k2).1).counterId = g.counterId ∧
    ((g.removeLink k1 k2).1).isDirected = g.isDirected ∧
    ((g.removeLink k1 k2).1).isWeighted = g.isWeighted := by
  unfold Graph.removeLink
  split
  · exact ⟨rfl, rfl, rfl, rfl, rfl⟩
  · split
    · cases hdir : !g.isDirected <;> simp [hdir]
    · exact ⟨rfl, rfl, rfl, rfl, rfl⟩

theorem removeNodeStep_identity (key : String) (g : Graph) (nb : Option String) :
    (Graph.removeNodeStep key g nb).keyToIdTable = g.keyToIdTable ∧
    (Graph.removeNodeStep key g nb).idToKeyTable = g.idToKeyTable ∧
    (Graph.removeNodeStep key g nb).counterId = g.counterId ∧
    (Graph.removeNodeStep key g nb).isDirected = g.isDirected ∧
    (Graph.removeNodeStep key g nb).isWeighted = g.isWeighted := by
  cases nb with
  | none => exact ⟨rfl, rfl, rfl, rfl, rfl⟩
  | some nbKey =>
      obtain ⟨e1, e2, e3, e4, e5⟩ := removeLink_identity g key nbKey
      unfold Graph.removeNodeStep
      dsimp only
      split
      · obtain ⟨f1, f2, f3, f4, f5⟩ :=
          removeLink_identity (g.removeLink key nbKey).1 nbKey key
        exact ⟨f1.trans e1, f2.trans e2, f3.trans e3, f4.trans e4, f5.trans e5⟩
      · exact ⟨e1, e2, e3, e4, e5⟩

theorem foldl_removeNodeStep_identity (key : String) (l : List (Option String)) :
    ∀ g : Graph,
    ((l.foldl (Graph.removeNodeStep key) g).keyToIdTable = g.keyToIdTable ∧
     (l.foldl (Graph.removeNodeStep key) g).idToKeyTable = g.idToKeyTable ∧
     (l.foldl (Graph.removeNodeStep key) g).counterId = g.counterId ∧
     (l.foldl (Graph.removeNodeStep key) g).isDirected = g.isDirected ∧
     (l.foldl (Graph.removeNodeStep key) g).isWeighted = g.isWeighted) := by
  induction l with
  | nil => intro g; exact ⟨rfl, rfl, rfl, rfl, rfl⟩
  | cons hd tl ih =>
      intro g
      obtain ⟨e1, e2, e3, e4, e5⟩ := removeNodeStep_identity key g hd
      obtain ⟨f1, f2, f3, f4, f5⟩ := ih (Graph.removeNodeStep key g hd)
      exact ⟨f1.trans e1, f2.trans e2, f3.trans e3, f4.trans e4, f5.trans e5⟩

theorem addNode_flags (g : Graph) (k : String) :
    ((g.addNode k).1).isDirected = g.isDirected ∧
    ((g.addNode k).1).isWeighted = g.isWeighted := by
  unfold Graph.addNode
  split <;> exact ⟨rfl, rfl⟩

theorem addLinkStore_flags (g : Graph) (k1 k2 : String) (w : ℚ) :
    (g.addLinkStore k1 k2 w).isDirected = g.isDirected ∧
    (g.addLinkStore k1 k2 w).isWeighted = g.isWeighted := by
  obtain ⟨e1, e2⟩ := addNode_flags g k1
  obtain ⟨f1, f2⟩ := addNode_flags (g.addNode k1).1 k2
  unfold Graph.addLinkStore
  dsimp only
  split
  · split
    · exact ⟨f1.trans e1, f2.trans e2⟩
    · exact ⟨f1.trans e1, f2.trans e2⟩
  · exact ⟨f1.trans e1, f2.trans e2⟩

theorem addLinkStore_identity (g : Graph) (k1 k2 : String) (w : ℚ) :
    (g.addLinkStore k1 k2 w).keyToIdTable = ((g.addNode k1).1.addNode k2).1.keyToIdTable ∧
    (g.addLinkStore k1 k2 w).idToKeyTable = ((g.addNode k1).1.addNode k2).1.idToKeyTable ∧
    (g.addLinkStore k1 k2 w).counterId = ((g.addNode k1).1.addNode k2).1.counterId := by
  unfold Graph.addLinkStore
  dsimp only
  split
  · split
    · exact ⟨rfl, rfl, rfl⟩
    · exact ⟨rfl, rfl, rfl⟩
  · exact ⟨rfl, rfl, rfl⟩

/-- Exhaustive description of `addLink`'s results. -/
theorem addLink_cases (g : Graph) (k1 k2 : String) (w : JSValue) :
    g.addLink k1 k2 w = .ok g false ∨
    (k1 ≠ k2 ∧ ∃ q : ℚ, g.addLink k1 k2 w = .ok (g.addLinkStore k1 k2 q) true) ∨
    g.addLink k1 k2 w = .thrown g := by
  unfold Graph.addLink
  by_cases h12 : k1 = k2
  · simp [h12]
  · by_cases hex : g.hasLink k1 k2
    · simp [h12, hex]
    · rw [if_neg h12, if_neg (by simp [hex])]
      dsimp only
      split
      · rename_i q heq
        exact .inr (.inl ⟨h12, q, rfl⟩)
      · exact .inr (.inr rfl)

theorem applyOp_addLink_cases (g : Graph) (k1 k2 : String) (w : JSValue) :
    applyOp g (.addLink k1 k2 w) = g ∨
    ∃ q : ℚ, applyOp g (.addLink k1 k2 w) = g.addLinkStore k1 k2 q := by
  rcases addLink_cases g k1 k2 w with h | ⟨_, q, h⟩ | h
  · left; simp [applyOp, h]
  · right; exact ⟨q, by simp [applyOp, h]⟩
  · left; simp [applyOp, h]

theorem applyOp_flags (g : Graph) (op : Op) :
    (applyOp g op).isDirected = g.isDirected ∧
    (applyOp g op).isWeighted = g.isWeighted := by
  cases op with
  | addNode k => exact addNode_flags g k
  | addLink k1 k2 w =>
      rcases applyOp_addLink_cases g k1 k2 w with h | ⟨q, h⟩
      · rw [h]; exact ⟨rfl, rfl⟩
      · rw [h]; exact addLinkStore_flags g k1 k2 q
  | removeLink k1 k2 =>
      obtain ⟨_, _, _, e4, e5⟩ := removeLink_identity g k1 k2
      exact ⟨e4, e5⟩
  | removeNode k =>
      show ((g.removeNode k).1).isDirected = _ ∧ ((g.removeNode k).1).isWeighted = _
      unfold Graph.removeNode
      dsimp only
      split
      · exact ⟨rfl, rfl⟩
      · obtain ⟨_, _, _, e4, e5⟩ := foldl_removeNodeStep_identity k
          ((g.connectedWith k).getD []) g
        split
        · exact ⟨e4, e5⟩
        · exact ⟨e4, e5⟩
  | setMainNode k =>
      show ((g.setMainNode k).1).isDirected = _ ∧ ((g.setMainNode k).1).isWeighted = _
      unfold Graph.setMainNode
      split <;> exact ⟨rfl, rfl⟩

theorem jsKeys_jsSet_of_mem {κ α : Type} [DecidableEq κ] {m : List (κ × α)}
    {k : κ} (v : α) (h : k ∈ jsKeys m) : jsKeys (jsSet m k v) = jsKeys m := by
  rw [jsKeys_jsSet, if_pos h]

theorem mem_jsKeys_jsSet_self {κ α : Type} [DecidableEq κ] (m : List (κ × α))
    (k : κ) (v : α) : k ∈ jsKeys (jsSet m k v) := by
  rw [← jsGet_isSome_iff_mem, jsGet_jsSet_self]
  rfl

theorem mem_jsKeys_jsSet_of_mem {κ α : Type} [DecidableEq κ] {m : List (κ × α)}
    {q : κ} (k : κ) (v : α) (h : q ∈ jsKeys m) : q ∈ jsKeys (jsSet m k v) := by
  rw [jsKeys_jsSet]
  split
  · exact h
  · exact List.mem_append_left _ h

theorem mem_jsKeys_of_pair {κ α : Type} {m : List (κ × α)} {p : κ × α}
    (h : p ∈ m) : p.1 ∈ jsKeys m := List.mem_map_of_mem Prod.fst h

theorem fresh_not_mem_jsKeys {α : Type} {m : List (Nat × α)} {c : Nat}
    (h : ∀ p ∈ m, p.1 < c) : c ∉ jsKeys m := by
  intro hc
  obtain ⟨p, hp, hpc⟩ := List.mem_map.mp hc
  exact absurd (hpc ▸ h p hp) (lt_irrefl c)

/-- The row a JS read `this.links[i]` sees always has unique keys under
`WF`. -/
theorem WF.rowD_nodup {g : Graph} (hWF : WF g) (i : Nat) :
    (jsKeys ((jsGet g.links i).getD [])).Nodup := by
  cases h : jsGet g.links i with
  | none => simp [jsKeys]
  | some row => exact hWF.rowsNodup _ (jsGet_mem h)

theorem WF.rowD_lt {g : Graph} (hWF : WF g) (i : Nat) :
    ∀ q ∈ (jsGet g.links i).getD [], q.1 < g.counterId := by
  cases h : jsGet g.links i with
  | none => simp
  | some row =>
      intro q hq
      exact (hWF.linksLt _ (jsGet_mem h)).2 q hq

theorem addNode_WF {g : Graph} (hWF : WF g) (k : String) : WF (g.addNode k).1 := by
  unfold Graph.addNode
  cases h : jsGet g.keyToIdTable k with
  | some i => exact hWF
  | none =>
      have hkfresh : k ∉ jsKeys g.keyToIdTable := (jsGet_eq_none_iff _ _).mp h
      have hcfresh : g.counterId ∉ jsKeys g.idToKeyTable :=
        fresh_not_mem_jsKeys hWF.idsLt
      have hcfreshL : g.counterId ∉ jsKeys g.links :=
        fresh_not_mem_jsKeys (fun p hp => (hWF.linksLt p hp).1)
      refine ⟨?_, ?_, ?_, ?_, ?_, ?_, ?_, ?_, ?_, ?_⟩
      · exact jsKeys_jsSet_nodup _ _ hWF.k2iNodup
      · exact jsKeys_jsSet_nodup _ _ hWF.i2kNodup
      · exact jsKeys_jsSet_nodup _ _ hWF.linksNodup
      · intro p hp
        rcases mem_jsSet_elim hp with h1 | h1
        · exact hWF.rowsNodup p h1
        · subst h1; simp [jsKeys]
      · intro p hp
        rcases mem_jsSet_elim hp with h1 | h1
        · have hlt : p.2 < g.counterId := hWF.idsLt _ (jsGet_mem (hWF.k2i_i2k p h1))
          rw [jsGet_jsSet_ne _ _ _ _ (Nat.ne_of_gt hlt)]
          exact hWF.k2i_i2k p h1
        · subst h1
          exact jsGet_jsSet_self _ _ _
      · intro p hp
        rcases mem_jsSet_elim hp with h1 | h1
        · have hkne : p.2 ≠ k := by
            intro he
            exact hkfresh (he ▸ mem_jsKeys_of_pair (jsGet_mem (hWF.i2k_k2i p h1)))
          rw [jsGet_jsSet_ne _ _ _ _ (fun he => hkne he.symm)]
          exact hWF.i2k_k2i p h1
        · subst h1
          exact jsGet_jsSet_self _ _ _
      · intro p hp
        rcases mem_jsSet_elim hp with h1 | h1
        · exact mem_jsKeys_jsSet_of_mem _ _ (hWF.links_live p h1)
        · subst h1
          exact mem_jsKeys_jsSet_self _ _ _
      · intro p hp
        rcases mem_jsSet_elim hp with h1 | h1
        · exact mem_jsKeys_jsSet_of_mem _ _ (hWF.live_links p h1)
        · subst h1
          exact mem_jsKeys_jsSet_self _ _ _
      · intro p hp
        rcases mem_jsSet_elim hp with h1 | h1
        · exact Nat.lt_succ_of_lt (hWF.idsLt p h1)
        · subst h1
          exact Nat.lt_succ_self _
      · intro p hp
        rcases mem_jsSet_elim hp with h1 | h1
        · obtain ⟨h2, h3⟩ := hWF.linksLt p h1
          exact ⟨Nat.lt_succ_of_lt h2, fun q hq => Nat.lt_succ_of_lt (h3 q hq)⟩
        · subst h1
          exact ⟨Nat.lt_succ_self _, by simp⟩

theorem mem_jsDelete_ne {κ α : Type} [DecidableEq κ] {m : List (κ × α)} {k : κ}
    {p : κ × α} (h : p ∈ jsDelete m k) : p.1 ≠ k := by
  induction m with
  | nil => simp [jsDelete] at h
  | cons hd tl ih =>
      obtain ⟨k', v'⟩ := hd
      by_cases hk : k' = k
      · subst hk
        simp [jsDelete] at h
        exact ih h
      · simp [jsDelete, hk] at h
        rcases h with h | h
        · simp [h]
          exact hk
        · exact ih h

/-- `i1` is a live id, so `i1` owns a `links` row. -/
theorem WF.live_mem_links {g : Graph} (hWF : WF g) {i1 : Nat}
    (hi1 : i1 ∈ jsKeys g.idToKeyTable) : i1 ∈ jsKeys g.links := by
  obtain ⟨p, hp, he⟩ := List.mem_map.mp hi1
  exact he ▸ hWF.live_links p hp

theorem WF.live_lt {g : Graph} (hWF : WF g) {i1 : Nat}
    (hi1 : i1 ∈ jsKeys g.idToKeyTable) : i1 < g.counterId := by
  obtain ⟨p, hp, he⟩ := List.mem_map.mp hi1
  exact he ▸ hWF.idsLt p hp

/-- Writing a cell `links[i1][i2] = w` preserves well-formedness when both
ids are live. -/
theorem linksSet_WF {g : Graph} (hWF : WF g) {i1 i2 : Nat}
    (hi1 : i1 ∈ jsKeys g.idToKeyTable) (hi2 : i2 ∈ jsKeys g.idToKeyTable)
    (w : ℚ) :
    WF { g with links :=
                  jsSet g.links i1 (jsSet ((jsGet g.links i1).getD []) i2 w) } := by
  have hi1L : i1 ∈ jsKeys g.links := hWF.live_mem_links hi1
  have hkeys := jsKeys_jsSet_of_mem
    (m := g.links) (jsSet ((jsGet g.links i1).getD []) i2 w) hi1L
  refine ⟨hWF.k2iNodup, hWF.i2kNodup, ?_, ?_, hWF.k2i_i2k, hWF.i2k_k2i,
    ?_, ?_, hWF.idsLt, ?_⟩
  · show (jsKeys (jsSet g.links i1
        (jsSet ((jsGet g.links i1).getD []) i2 w))).Nodup
    rw [hkeys]
    exact hWF.linksNodup
  · intro p hp
    rcases mem_jsSet_elim hp with h1 | h1
    · exact hWF.rowsNodup p h1
    · subst h1
      exact jsKeys_jsSet_nodup _ _ (hWF.rowD_nodup i1)
  · intro p hp
    rcases mem_jsSet_elim hp with h1 | h1
    · exact hWF.links_live p h1
    · subst h1
      exact hi1
  · intro p hp
    show p.1 ∈ jsKeys (jsSet g.links i1 (jsSet ((jsGet g.links i1).getD []) i2 w))
    rw [hkeys]
    exact hWF.live_links p hp
  · intro p hp
    rcases mem_jsSet_elim hp with h1 | h1
    · exact hWF.linksLt p h1
    · subst h1
      refine ⟨hWF.live_lt hi1, ?_⟩
      intro q hq
      rcases mem_jsSet_elim hq with h2 | h2
      · exact hWF.rowD_lt i1 q h2
      · subst h2
        exact hWF.live_lt hi2
  -- counterId, keyToIdTable and idToKeyTable are untouched

/-- Deleting a cell `delete links[i1][i2]` preserves well-formedness when
`i1` is live. -/
theorem linksDelete_WF {g : Graph} (hWF : WF g) {i1 : Nat} (i2 : Nat)
    (hi1 : i1 ∈ jsKeys g.idToKeyTable) :
    WF { g with links :=
                  jsSet g.links i1 (jsDelete ((jsGet g.links i1).getD []) i2) } := by
  have hi1L : i1 ∈ jsKeys g.links := hWF.live_mem_links hi1
  have hkeys := jsKeys_jsSet_of_mem
    (m := g.links) (jsDelete ((jsGet g.links i1).getD []) i2) hi1L
  refine ⟨hWF.k2iNodup, hWF.i2kNodup, ?_, ?_, hWF.k2i_i2k, hWF.i2k_k2i,
    ?_, ?_, hWF.idsLt, ?_⟩
  · show (jsKeys (jsSet g.links i1
        (jsDelete ((jsGet g.links i1).getD []) i2))).Nodup
    rw [hkeys]
    exact hWF.linksNodup
  · intro p hp
    rcases mem_jsSet_elim hp with h1 | h1
    · exact hWF.rowsNodup p h1
    · subst h1
      exact jsKeys_jsDelete_nodup _ (hWF.rowD_nodup i1)
  · intro p hp
    rcases mem_jsSet_elim hp with h1 | h1
    · exact hWF.links_live p h1
    · subst h1
      exact hi1
  · intro p hp
    show p.1 ∈ jsKeys (jsSet g.links i1 (jsDelete ((jsGet g.links i1).getD []) i2))
    rw [hkeys]
    exact hWF.live_links p hp
  · intro p hp
    rcases mem_jsSet_elim hp with h1 | h1
    · exact hWF.linksLt p h1
    · subst h1
      exact ⟨hWF.live_lt hi1, fun q hq =>
        hWF.rowD_lt i1 q (mem_jsDelete_elim hq)⟩

theorem WF.mem_i2k_of_k2i {g : Graph} (hWF : WF g) {k : String} {i : Nat}
    (h : jsGet g.keyToIdTable k = some i) : i ∈ jsKeys g.idToKeyTable :=
  mem_jsKeys_of_pair (jsGet_mem (hWF.i2k_of_k2i h))

theorem removeLink_WF {g : Graph} (hWF : WF g) (k1 k2 : String) :
    WF (g.removeLink k1 k2).1 := by
  unfold Graph.removeLink
  split
  · exact hWF
  · dsimp only
    cases hk1 : jsGet g.keyToIdTable k1 with
    | none => exact hWF
    | some i1 =>
        cases hk2 : jsGet g.keyToIdTable k2 with
        | none => exact hWF
        | some i2 =>
            have hi1 : i1 ∈ jsKeys g.idToKeyTable := hWF.mem_i2k_of_k2i hk1
            have hi2 : i2 ∈ jsKeys g.idToKeyTable := hWF.mem_i2k_of_k2i hk2
            have hWF1 := linksDelete_WF hWF i2 hi1
            dsimp only
            split
            · exact linksDelete_WF hWF1 i1 hi2
            · exact hWF1

theorem removeNodeStep_WF {g : Graph} (hWF : WF g) (key : String)
    (nb : Option String) : WF (Graph.removeNodeStep key g nb) := by
  cases nb with
  | none => exact hWF
  | some nbKey =>
      unfold Graph.removeNodeStep
      dsimp only
      have h1 := removeLink_WF hWF key nbKey
      split
      · exact removeLink_WF h1 nbKey key
      · exact h1

theorem foldl_removeNodeStep_WF (key : String) (l : List (Option String)) :
    ∀ {g : Graph}, WF g → WF (l.foldl (Graph.removeNodeStep key) g) := by
  induction l with
  | nil => intro g hWF; exact hWF
  | cons hd tl ih =>
      intro g hWF
      exact ih (removeNodeStep_WF hWF key hd)

theorem removeNode_WF {g : Graph} (hWF : WF g) (k : String) :
    WF (g.removeNode k).1 := by
  unfold Graph.removeNode
  split
  · exact hWF
  · dsimp only
    have hWFl : WF (((g.connectedWith k).getD []).foldl (Graph.removeNodeStep k) g) :=
      foldl_removeNodeStep_WF k _ hWF
    set gl := ((g.connectedWith k).getD []).foldl (Graph.removeNodeStep k) g with hgl
    cases hk : jsGet gl.keyToIdTable k with
    | none => exact hWFl
    | some id =>
        dsimp only
        have hkid : (k, id) ∈ gl.keyToIdTable := jsGet_mem hk
        have hidk : jsGet gl.idToKeyTable id = some k := hWFl.i2k_of_k2i hk
        refine ⟨jsKeys_jsDelete_nodup _ hWFl.k2iNodup,
          jsKeys_jsDelete_nodup _ hWFl.i2kNodup,
          jsKeys_jsDelete_nodup _ hWFl.linksNodup, ?_, ?_, ?_, ?_, ?_, ?_, ?_⟩
        · intro p hp
          exact hWFl.rowsNodup p (mem_jsDelete_elim hp)
        · intro p hp
          have hpm := mem_jsDelete_elim hp
          have hpne : p.1 ≠ k := mem_jsDelete_ne hp
          have hi : jsGet gl.idToKeyTable p.2 = some p.1 := hWFl.k2i_i2k p hpm
          have hne : p.2 ≠ id := by
            intro he
            rw [he, hidk] at hi
            exact hpne (by simpa using hi.symm)
          show jsGet (jsDelete gl.idToKeyTable id) p.2 = some p.1
          rw [jsGet_jsDelete_ne _ _ _ (Ne.symm hne)]
          exact hi
        · intro p hp
          have hpm := mem_jsDelete_elim hp
          have hpne : p.1 ≠ id := mem_jsDelete_ne hp
          have hi : jsGet gl.keyToIdTable p.2 = some p.1 := hWFl.i2k_k2i p hpm
          have hne : p.2 ≠ k := by
            intro he
            rw [he, hk] at hi
            exact hpne (by simpa using hi.symm)
          show jsGet (jsDelete gl.keyToIdTable k) p.2 = some p.1
          rw [jsGet_jsDelete_ne _ _ _ (Ne.symm hne)]
          exact hi
        · intro p hp
          have hpm := mem_jsDelete_elim hp
          have hpne : p.1 ≠ id := mem_jsDelete_ne hp
          exact (mem_jsKeys_jsDelete_iff _ _ _).mpr ⟨hWFl.links_live p hpm, hpne⟩
        · intro p hp
          have hpm := mem_jsDelete_elim hp
          have hpne : p.1 ≠ id := mem_jsDelete_ne hp
          exact (mem_jsKeys_jsDelete_iff _ _ _).mpr ⟨hWFl.live_links p hpm, hpne⟩
        · intro p hp
          exact hWFl.idsLt p (mem_jsDelete_elim hp)
        · intro p hp
          exact hWFl.linksLt p (mem_jsDelete_elim hp)

theorem addLinkStore_WF {g : Graph} (hWF : WF g) (k1 k2 : String) (w : ℚ) :
    WF (g.addLinkStore k1 k2 w) := by
  have h2 : WF ((g.addNode k1).1.addNode k2).1 := addNode_WF (addNode_WF hWF k1) k2
  unfold Graph.addLinkStore
  dsimp only
  cases hk1 : jsGet ((g.addNode k1).1.addNode k2).1.keyToIdTable k1 with
  | none => exact h2
  | some i1 =>
      cases hk2 : jsGet ((g.addNode k1).1.addNode k2).1.keyToIdTable k2 with
      | none => exact h2
      | some i2 =>
          have hi1 := h2.mem_i2k_of_k2i hk1
          have hi2 := h2.mem_i2k_of_k2i hk2
          have hWF1 := linksSet_WF h2 hi1 hi2 w
          dsimp only
          split
          · exact linksSet_WF hWF1 hi2 hi1 w
          · exact hWF1

theorem setMainNode_WF {g : Graph} (hWF : WF g) (k : String) :
    WF (g.setMainNode k).1 := by
  unfold Graph.setMainNode
  split
  · exact ⟨hWF.k2iNodup, hWF.i2kNodup, hWF.linksNodup, hWF.rowsNodup,
      hWF.k2i_i2k, hWF.i2k_k2i, hWF.links_live, hWF.live_links,
      hWF.idsLt, hWF.linksLt⟩
  · exact hWF

theorem applyOp_WF {g : Graph} (hWF : WF g) (op : Op) : WF (applyOp g op) := by
  cases op with
  | addNode k => exact addNode_WF hWF k
  | addLink k1 k2 w =>
      rcases applyOp_addLink_cases g k1 k2 w with h | ⟨q, h⟩
      · rw [h]; exact hWF
      · rw [h]; exact addLinkStore_WF hWF k1 k2 q
  | removeLink k1 k2 => exact removeLink_WF hWF k1 k2
  | removeNode k => exact removeNode_WF hWF k
  | setMainNode k => exact setMainNode_WF hWF k

theorem WF_new (d w : Bool) : WF (Graph.new d w) := by
  refine ⟨?_, ?_, ?_, ?_, ?_, ?_, ?_, ?_, ?_, ?_⟩ <;>
    simp [Graph.new, jsKeys]

theorem runOps_WF (ops : List Op) : ∀ {g : Graph}, WF g → WF (runOps g ops) := by
  induction ops with
  | nil => intro g hWF; exact hWF
  | cons hd tl ih =>
      intro g hWF
      exact ih (applyOp_WF hWF hd)

theorem reachable_WF {d w : Bool} {g : Graph} (h : ReachableFrom d w g) : WF g := by
  obtain ⟨ops, rfl⟩ := h
  exact runOps_WF ops (WF_new d w)

theorem runOps_flags (ops : List Op) : ∀ g : Graph,
    (runOps g ops).isDirected = g.isDirected ∧
    (runOps g ops).isWeighted = g.isWeighted := by
  induction ops with
  | nil => intro g; exact ⟨rfl, rfl⟩
  | cons hd tl ih =>
      intro g
      obtain ⟨e1, e2⟩ := applyOp_flags g hd
      obtain ⟨f1, f2⟩ := ih (applyOp g hd)
      exact ⟨f1.trans e1, f2.trans e2⟩

/-- C5 witness: the amended `connectedWith` specification instantiated at the
counterexample graph and key `c`. -/
theorem c5_connectedWith_spec_witness :
    WF c5Graph ∧ NoDangling c5Graph ∧
      (((c5Graph.connectedWith "c").isSome = true ↔ c5Graph.hasNode "c" = true) ∧
      (∀ l, c5Graph.connectedWith "c" = some l →
        ∃ nbs : List String, l = nbs.map some ∧
          (∀ k2, k2 ∈ nbs ↔ c5Graph.hasLink "c" k2 = true) ∧
          List.Pairwise c5Graph.keyIdLt nbs)) :=
  have hWF : WF c5Graph :=
    ⟨by decide, by decide, by decide, by decide, by decide,
     by decide, by decide, by decide, by decide, by decide⟩
  have hND : NoDangling c5Graph :=
    show ∀ p ∈ c5Graph.links, ∀ q ∈ p.2, q.1 ∈ jsKeys c5Graph.idToKeyTable by decide
  ⟨hWF, hND, c5_connectedWith_spec c5Graph hWF hND "c"⟩

/-! ### Cell-level computation lemmas -/

theorem jsGet_jsSet_ite {κ α : Type} [DecidableEq κ] (m : List (κ × α)) (k q : κ)
    (v : α) : jsGet (jsSet m k v) q = if q = k then some v else jsGet m q := by
  by_cases h : q = k
  · subst h; rw [jsGet_jsSet_self, if_pos rfl]
  · rw [jsGet_jsSet_ne _ _ _ _ (fun he => h he.symm), if_neg h]

theorem jsGet_jsDelete_ite {κ α : Type} [DecidableEq κ] (m : List (κ × α)) (k q : κ) :
    jsGet (jsDelete m k) q = if q = k then none else jsGet m q := by
  by_cases h : q = k
  · subst h; rw [jsGet_jsDelete_self, if_pos rfl]
  · rw [jsGet_jsDelete_ne _ _ _ (fun he => h he.symm), if_neg h]

theorem tableAt_jsSet (L : List (Nat × List (Nat × ℚ))) (i : Nat)
    (r : List (Nat × ℚ)) (x y : Nat) :
    tableAt (jsSet L i r) x y = if x = i then jsGet r y else tableAt L x y := by
  unfold tableAt
  rw [jsGet_jsSet_ite]
  by_cases h : x = i <;> simp [h]

theorem tableAt_jsDelete_row (L : List (Nat × List (Nat × ℚ))) (i x y : Nat) :
    tableAt (jsDelete L i) x y = if x = i then none else tableAt L x y := by
  unfold tableAt
  rw [jsGet_jsDelete_ite]
  by_cases h : x = i <;> simp [h]

theorem rowD_get (L : List (Nat × List (Nat × ℚ))) (i y : Nat) :
    jsGet ((jsGet L i).getD []) y = tableAt L i y := by
  unfold tableAt
  cases jsGet L i <;> simp

/-- Membership form of a cell: under unique keys, a stored pair is exactly a
`tableAt` hit. -/
theorem tableAt_eq_some_of_mem {L : List (Nat × List (Nat × ℚ))}
    {i : Nat} {row : List (Nat × ℚ)} {j : Nat} {w : ℚ}
    (hnd : (jsKeys L).Nodup) (hrow : (i, row) ∈ L)
    (hrownd : (jsKeys row).Nodup) (hcell : (j, w) ∈ row) :
    tableAt L i j = some w := by
  unfold tableAt
  rw [mem_jsGet hnd hrow]
  exact mem_jsGet hrownd hcell

theorem tableAt_mem {L : List (Nat × List (Nat × ℚ))} {i j : Nat} {w : ℚ}
    (h : tableAt L i j = some w) :
    ∃ row, (i, row) ∈ L ∧ (j, w) ∈ row := by
  unfold tableAt at h
  cases hr : jsGet L i with
  | none => rw [hr] at h; simp at h
  | some row =>
      rw [hr] at h
      exact ⟨row, jsGet_mem hr, jsGet_mem h⟩

/-! ### C8: unit weights in unweighted graphs -/

theorem UnitWeights.rowD_unit {g : Graph} (hU : UnitWeights g) (i : Nat) :
    ∀ q ∈ (jsGet g.links i).getD [], q.2 = 1 := by
  cases h : jsGet g.links i with
  | none => simp
  | some row =>
      intro q hq
      exact hU _ (jsGet_mem h) q hq

theorem unit_linksSet {g : Graph} (hU : UnitWeights g) (i1 i2 : Nat) :
    UnitWeights { g with links :=
                    jsSet g.links i1 (jsSet ((jsGet g.links i1).getD []) i2 1) } := by
  intro p hp q hq
  rcases mem_jsSet_elim hp with h1 | h1
  · exact hU p h1 q hq
  · subst h1
    rcases mem_jsSet_elim hq with h2 | h2
    · exact hU.rowD_unit i1 q h2
    · simp [h2]

theorem unit_linksDelete {g : Graph} (hU : UnitWeights g) (i1 i2 : Nat) :
    UnitWeights { g with links :=
                    jsSet g.links i1 (jsDelete ((jsGet g.links i1).getD []) i2) } := by
  intro p hp q hq
  rcases mem_jsSet_elim hp with h1 | h1
  · exact hU p h1 q hq
  · subst h1
    exact hU.rowD_unit i1 q (mem_jsDelete_elim hq)

theorem addNode_unit {g : Graph} (hU : UnitWeights g) (k : String) :
    UnitWeights (g.addNode k).1 := by
  unfold Graph.addNode
  cases h : jsGet g.keyToIdTable k with
  | some i => exact hU
  | none =>
      intro p hp q hq
      rcases mem_jsSet_elim hp with h1 | h1
      · exact hU p h1 q hq
      · subst h1; simp at hq

theorem addLinkStore_unit {g : Graph} (hU : UnitWeights g) (k1 k2 : String) :
    UnitWeights (g.addLinkStore k1 k2 1) := by
  have h2 : UnitWeights ((g.addNode k1).1.addNode k2).1 :=
    addNode_unit (addNode_unit hU k1) k2
  unfold Graph.addLinkStore
  dsimp only
  cases hk1 : jsGet ((g.addNode k1).1.addNode k2).1.keyToIdTable k1 with
  | none => exact h2
  | some i1 =>
      cases hk2 : jsGet ((g.addNode k1).1.addNode k2).1.keyToIdTable k2 with
      | none => exact h2
      | some i2 =>
          have hU1 := unit_linksSet h2 i1 i2
          dsimp only
          split
          · exact unit_linksSet hU1 i2 i1
          · exact hU1

/-- In an unweighted graph the weight is forced to the unit value before the
store, regardless of the caller's argument. -/
theorem addLink_unweighted_cases (g : Graph) (hw : g.isWeighted = false)
    (k1 k2 : String) (w : JSValue) :
    g.addLink k1 k2 w = .ok g false ∨
    g.addLink k1 k2 w = .ok (g.addLinkStore k1 k2 1) true := by
  unfold Graph.addLink
  by_cases h12 : k1 = k2
  · simp [h12]
  · by_cases hex : g.hasLink k1 k2
    · simp [h12, hex]
    · rw [if_neg h12, if_neg (by simp [hex])]
      right
      simp [hw]

theorem removeLink_unit {g : Graph} (hU : UnitWeights g) (k1 k2 : String) :
    UnitWeights (g.removeLink k1 k2).1 := by
  unfold Graph.removeLink
  split
  · exact hU
  · dsimp only
    cases hk1 : jsGet g.keyToIdTable k1 with
    | none => exact hU
    | some i1 =>
        cases hk2 : jsGet g.keyToIdTable k2 with
        | none => exact hU
        | some i2 =>
            have hU1 := unit_linksDelete hU i1 i2
            dsimp only
            split
            · exact unit_linksDelete hU1 i2 i1
            · exact hU1

theorem removeNodeStep_unit {g : Graph} (hU : UnitWeights g) (key : String)
    (nb : Option String) : UnitWeights (Graph.removeNodeStep key g nb) := by
  cases nb with
  | none => exact hU
  | some nbKey =>
      unfold Graph.removeNodeStep
      dsimp only
      have h1 := removeLink_unit hU key nbKey
      split
      · exact removeLink_unit h1 nbKey key
      · exact h1

theorem foldl_removeNodeStep_unit (key : String) (l : List (Option String)) :
    ∀ {g : Graph}, UnitWeights g →
      UnitWeights (l.foldl (Graph.removeNodeStep key) g) := by
  induction l with
  | nil => intro g hU; exact hU
  | cons hd tl ih =>
      intro g hU
      exact ih (removeNodeStep_unit hU key hd)

theorem removeNode_unit {g : Graph} (hU : UnitWeights g) (k : String) :
    UnitWeights (g.removeNode k).1 := by
  unfold Graph.removeNode
  split
  · exact hU
  · dsimp only
    have hUl : UnitWeights (((g.connectedWith k).getD []).foldl (Graph.removeNodeStep k) g) :=
      foldl_removeNodeStep_unit k _ hU
    set gl := ((g.connectedWith k).getD []).foldl (Graph.removeNodeStep k) g with hgl
    cases hk : jsGet gl.keyToIdTable k with
    | none => exact hUl
    | some id =>
        dsimp only
        intro p hp q hq
        exact hUl p (mem_jsDelete_elim hp) q hq

theorem setMainNode_unit {g : Graph} (hU : UnitWeights g) (k : String) :
    UnitWeights (g.setMainNode k).1 := by
  unfold Graph.setMainNode
  split
  · intro p hp q hq; exact hU p hp q hq
  · exact hU

theorem applyOp_unit {g : Graph} (hw : g.isWeighted = false)
    (hU : UnitWeights g) (op : Op) : UnitWeights (applyOp g op) := by
  cases op with
  | addNode k => exact addNode_unit hU k
  | addLink k1 k2 w =>
      rcases addLink_unweighted_cases g hw k1 k2 w with h | h
      · show UnitWeights (match g.addLink k1 k2 w with
          | .ok g' _ => g' | .thrown g' => g')
        rw [h]
        exact hU
      · show UnitWeights (match g.addLink k1 k2 w with
          | .ok g' _ => g' | .thrown g' => g')
        rw [h]
        exact addLinkStore_unit hU k1 k2
  | removeLink k1 k2 => exact removeLink_unit hU k1 k2
  | removeNode k => exact removeNode_unit hU k
  | setMainNode k => exact setMainNode_unit hU k

theorem runOps_unit (ops : List Op) :
    ∀ {g : Graph}, g.isWeighted = false → UnitWeights g →
      UnitWeights (runOps g ops) := by
  induction ops with
  | nil => intro g _ hU; exact hU
  | cons hd tl ih =>
      intro g hw hU
      exact ih ((applyOp_flags g hd).2.trans hw) (applyOp_unit hw hU hd)

/-- C8: in a graph constructed unweighted, after any sequence of operations,
every existing link's `linkWeight` equals 1, regardless of any weight
argument the caller supplied to `addLink`. -/
theorem c8_unweighted_unit_weight {d : Bool} {g : Graph}
    (h : ReachableFrom d false g) :
    ∀ (a b : String) (w : ℚ), g.linkWeight a b = some w → w = 1 := by
  obtain ⟨ops, rfl⟩ := h
  have hU : UnitWeights (runOps (Graph.new d false) ops) :=
    runOps_unit ops rfl (by intro p hp; simp [Graph.new] at hp)
  intro a b w hw
  unfold Graph.linkWeight at hw
  split at hw
  · simp at hw
  · split at hw
    · rename_i i1 i2 heq1 heq2
      rw [rowD_get] at hw
      obtain ⟨row, hrow, hcell⟩ := tableAt_mem hw
      exact hU _ hrow _ hcell
    · simp at hw

/-- C8 witness: an unweighted graph where `addLink` was called with an
explicit weight 5 still stores weight 1. -/
theorem c8_unweighted_unit_weight_witness :
    ReachableFrom false false c8Graph ∧
      (∀ (a b : String) (w : ℚ), c8Graph.linkWeight a b = some w → w = 1) :=
  ⟨⟨[.addLink "a" "b" (JSValue.number (.finite 5))], rfl⟩,
    c8_unweighted_unit_weight ⟨[.addLink "a" "b" (JSValue.number (.finite 5))], rfl⟩⟩

/-! ### C7: symmetry of undirected graphs -/

theorem WF.row_fresh {g : Graph} (hWF : WF g) (y : Nat) :
    tableAt g.links g.counterId y = none := by
  unfold tableAt
  cases h : jsGet g.links g.counterId with
  | none => rfl
  | some row =>
      exact absurd (mem_jsKeys_of_pair (jsGet_mem h))
        (fresh_not_mem_jsKeys (fun p hp => (hWF.linksLt p hp).1))

theorem WF.cell_fresh {g : Graph} (hWF : WF g) (x : Nat) :
    tableAt g.links x g.counterId = none := by
  unfold tableAt
  cases h : jsGet g.links x with
  | none => rfl
  | some row =>
      cases hc : jsGet row g.counterId with
      | none => simp [hc]
      | some w =>
          exact absurd (mem_jsKeys_of_pair (jsGet_mem hc))
            (fresh_not_mem_jsKeys
              (fun q hq => (hWF.linksLt _ (jsGet_mem h)).2 q hq))

theorem WF.inj_ids {g : Graph} (hWF : WF g) {k1 k2 : String} {i1 i2 : Nat}
    (h1 : jsGet g.keyToIdTable k1 = some i1)
    (h2 : jsGet g.keyToIdTable k2 = some i2) (hne : k1 ≠ k2) : i1 ≠ i2 := by
  intro he
  subst he
  have e1 := hWF.i2k_of_k2i h1
  have e2 := hWF.i2k_of_k2i h2
  rw [e1] at e2
  exact hne (by simpa using e2)

theorem addNode_symm {g : Graph} (hWF : WF g) (hS : Symm g) (k : String) :
    Symm (g.addNode k).1 := by
  unfold Graph.addNode
  cases h : jsGet g.keyToIdTable k with
  | some i => exact hS
  | none =>
      intro i j
      show tableAt (jsSet g.links g.counterId []) i j =
        tableAt (jsSet g.links g.counterId []) j i
      rw [tableAt_jsSet, tableAt_jsSet]
      by_cases hi : i = g.counterId <;> by_cases hj : j = g.counterId
      · simp [hi, hj]
      · simp [hi, hj, hWF.cell_fresh j]
      · simp [hi, hj, hWF.cell_fresh i]
      · simp only [hi, hj, if_neg, if_false]
        exact hS i j

theorem addLinkStore_symm {g : Graph} (hWF : WF g) (hS : Symm g)
    (hdir : g.isDirected = false) (k1 k2 : String) (hne : k1 ≠ k2) (w : ℚ) :
    Symm (g.addLinkStore k1 k2 w) := by
  have hWF1 : WF (g.addNode k1).1 := addNode_WF hWF k1
  have hWF2 : WF ((g.addNode k1).1.addNode k2).1 := addNode_WF hWF1 k2
  have hS2 : Symm ((g.addNode k1).1.addNode k2).1 :=
    addNode_symm hWF1 (addNode_symm hWF hS k1) k2
  have hdir2 : ((g.addNode k1).1.addNode k2).1.isDirected = false :=
    ((addNode_flags _ k2).1.trans (addNode_flags g k1).1).trans hdir
  unfold Graph.addLinkStore
  dsimp only
  cases hk1 : jsGet ((g.addNode k1).1.addNode k2).1.keyToIdTable k1 with
  | none => exact hS2
  | some i1 =>
      cases hk2 : jsGet ((g.addNode k1).1.addNode k2).1.keyToIdTable k2 with
      | none => exact hS2
      | some i2 =>
          have h12 : i1 ≠ i2 := hWF2.inj_ids hk1 hk2 hne
          dsimp only
          rw [if_pos (by simp [hdir2])]
          set L := ((g.addNode k1).1.addNode k2).1.links with hL
          have hSL : ∀ a b : Nat, tableAt L a b = tableAt L b a :=
            fun a b => hS2 a b
          intro x y
          show tableAt (jsSet (jsSet L i1 (jsSet ((jsGet L i1).getD []) i2 w)) i2
              (jsSet ((jsGet (jsSet L i1 (jsSet ((jsGet L i1).getD []) i2 w)) i2).getD []) i1 w)) x y =
            tableAt (jsSet (jsSet L i1 (jsSet ((jsGet L i1).getD []) i2 w)) i2
              (jsSet ((jsGet (jsSet L i1 (jsSet ((jsGet L i1).getD []) i2 w)) i2).getD []) i1 w)) y x
          rw [show jsGet (jsSet L i1 (jsSet ((jsGet L i1).getD []) i2 w)) i2 =
              jsGet L i2 from jsGet_jsSet_ne _ _ _ _ h12]
          by_cases hxy : x = y
          · subst hxy; rfl
          · rw [tableAt_jsSet, tableAt_jsSet, tableAt_jsSet, tableAt_jsSet]
            by_cases hx2 : x = i2 <;> by_cases hy2 : y = i2 <;>
              by_cases hx1 : x = i1 <;> by_cases hy1 : y = i1 <;>
              first
                | omega
                | simp [hx2, hy2, hx1, hy1, jsGet_jsSet_ite, rowD_get,
                    h12, Ne.symm h12, hSL x y, hSL i2 y, hSL x i2,
                    hSL i1 y, hSL x i1, hSL i1 i2, hSL i2 i1]

theorem removeLink_symm {g : Graph} (hS : Symm g)
    (hdir : g.isDirected = false) (k1 k2 : String) :
    Symm (g.removeLink k1 k2).1 := by
  have hSL : ∀ a b : Nat, tableAt g.links a b = tableAt g.links b a :=
    fun a b => hS a b
  unfold Graph.removeLink
  split
  · exact hS
  · dsimp only
    cases hk1 : jsGet g.keyToIdTable k1 with
    | none => exact hS
    | some i1 =>
        cases hk2 : jsGet g.keyToIdTable k2 with
        | none => exact hS
        | some i2 =>
            dsimp only
            rw [if_pos (by simp [hdir])]
            intro x y
            show tableAt (jsSet (jsSet g.links i1 (jsDelete ((jsGet g.links i1).getD []) i2)) i2
                (jsDelete ((jsGet (jsSet g.links i1 (jsDelete ((jsGet g.links i1).getD []) i2)) i2).getD []) i1)) x y =
              tableAt (jsSet (jsSet g.links i1 (jsDelete ((jsGet g.links i1).getD []) i2)) i2
                (jsDelete ((jsGet (jsSet g.links i1 (jsDelete ((jsGet g.links i1).getD []) i2)) i2).getD []) i1)) y x
            by_cases hxy : x = y
            · subst hxy; rfl
            · rw [jsGet_jsSet_ite]
              by_cases h12 : i2 = i1
              · subst h12
                rw [if_pos rfl]
                rw [tableAt_jsSet, tableAt_jsSet, tableAt_jsSet, tableAt_jsSet]
                by_cases hx2 : x = i2 <;> by_cases hy2 : y = i2 <;>
                  first
                    | omega
                    | simp [hx2, hy2, jsGet_jsDelete_ite, jsGet_jsSet_ite,
                        rowD_get, hSL x y, hSL i2 y, hSL x i2]
              · rw [if_neg h12]
                rw [tableAt_jsSet, tableAt_jsSet, tableAt_jsSet, tableAt_jsSet]
                by_cases hx2 : x = i2 <;> by_cases hy2 : y = i2 <;>
                  by_cases hx1 : x = i1 <;> by_cases hy1 : y = i1 <;>
                  first
                    | omega
                    | simp [hx2, hy2, hx1, hy1, jsGet_jsDelete_ite,
                        jsGet_jsSet_ite, rowD_get, h12, Ne.symm h12,
                        hSL x y, hSL i2 y, hSL x i2, hSL i1 y, hSL x i1,
                        hSL i1 i2, hSL i2 i1]

/-- A `removeLink` call never adds or changes a cell: every surviving cell
keeps its old value. -/
theorem removeLink_linkAt_cases (g : Graph) (k1 k2 : String) (x y : Nat) :
    ((g.removeLink k1 k2).1).linkAt x y = g.linkAt x y ∨
    ((g.removeLink k1 k2).1).linkAt x y = none := by
  unfold Graph.removeLink
  split
  · left; rfl
  · dsimp only
    cases hk1 : jsGet g.keyToIdTable k1 with
    | none => left; rfl
    | some i1 =>
        cases hk2 : jsGet g.keyToIdTable k2 with
        | none => left; rfl
        | some i2 =>
            dsimp only
            split
            · -- undirected: both deletions
              show (tableAt (jsSet (jsSet g.links i1 (jsDelete ((jsGet g.links i1).getD []) i2)) i2
                  (jsDelete ((jsGet (jsSet g.links i1 (jsDelete ((jsGet g.links i1).getD []) i2)) i2).getD []) i1)) x y =
                    tableAt g.links x y) ∨
                (tableAt (jsSet (jsSet g.links i1 (jsDelete ((jsGet g.links i1).getD []) i2)) i2
                  (jsDelete ((jsGet (jsSet g.links i1 (jsDelete ((jsGet g.links i1).getD []) i2)) i2).getD []) i1)) x y = none)
              rw [jsGet_jsSet_ite]
              by_cases h12 : i2 = i1
              · subst h12
                rw [if_pos rfl, tableAt_jsSet, tableAt_jsSet]
                by_cases hx2 : x = i2 <;>
                  by_cases hy2 : y = i2 <;>
                  simp [hx2, hy2, jsGet_jsDelete_ite, jsGet_jsSet_ite, rowD_get]
              · rw [if_neg h12, tableAt_jsSet, tableAt_jsSet]
                by_cases hx2 : x = i2 <;> by_cases hx1 : x = i1 <;>
                  by_cases hy2 : y = i2 <;> by_cases hy1 : y = i1 <;>
                  first
                    | omega
                    | simp [hx2, hx1, hy2, hy1, jsGet_jsDelete_ite,
                        jsGet_jsSet_ite, rowD_get, h12, Ne.symm h12]
            · -- directed: only the forward deletion
              show (tableAt (jsSet g.links i1 (jsDelete ((jsGet g.links i1).getD []) i2)) x y =
                    tableAt g.links x y) ∨
                (tableAt (jsSet g.links i1 (jsDelete ((jsGet g.links i1).getD []) i2)) x y = none)
              rw [tableAt_jsSet]
              by_cases hx1 : x = i1 <;> by_cases hy2 : y = i2 <;>
                simp [hx1, hy2, jsGet_jsDelete_ite, rowD_get]

/-- After `removeLink(k1, k2)` the forward cell is gone (whether or not the
link existed). -/
theorem removeLink_kills {g : Graph} {k1 k2 : String} {i1 i2 : Nat}
    (hk1 : jsGet g.keyToIdTable k1 = some i1)
    (hk2 : jsGet g.keyToIdTable k2 = some i2) :
    ((g.removeLink k1 k2).1).linkAt i1 i2 = none := by
  unfold Graph.removeLink
  split
  · -- hasLink false: the cell was already absent
    rename_i hnl
    simp only [Bool.not_eq_true'] at hnl
    unfold Graph.hasLink at hnl
    rw [hk1, hk2] at hnl
    show tableAt g.links i1 i2 = none
    unfold tableAt
    cases hr : jsGet g.links i1 with
    | none => simp
    | some row =>
        simp only [hr] at hnl
        have hcell : jsGet row i2 = none := by
          cases hq : jsGet row i2 with
          | none => rfl
          | some w => rw [hq] at hnl; simp at hnl
        simp [hcell]
  · dsimp only
    rw [hk1, hk2]
    dsimp only
    split
    · show tableAt (jsSet (jsSet g.links i1 (jsDelete ((jsGet g.links i1).getD []) i2)) i2
          (jsDelete ((jsGet (jsSet g.links i1 (jsDelete ((jsGet g.links i1).getD []) i2)) i2).getD []) i1)) i1 i2 = none
      rw [tableAt_jsSet, tableAt_jsSet]
      by_cases h12 : i1 = i2 <;>
        simp [h12, jsGet_jsDelete_ite, jsGet_jsSet_ite, rowD_get]
    · show tableAt (jsSet g.links i1 (jsDelete ((jsGet g.links i1).getD []) i2)) i1 i2 = none
      rw [tableAt_jsSet]
      simp [jsGet_jsDelete_ite]

theorem removeNodeStep_linkAt_cases (key : String) (g : Graph)
    (nb : Option String) (x y : Nat) :
    (Graph.removeNodeStep key g nb).linkAt x y = g.linkAt x y ∨
    (Graph.removeNodeStep key g nb).linkAt x y = none := by
  cases nb with
  | none => left; rfl
  | some nbKey =>
      unfold Graph.removeNodeStep
      dsimp only
      split
      · rcases removeLink_linkAt_cases (g.removeLink key nbKey).1 nbKey key x y with h | h
        · rw [h]
          exact removeLink_linkAt_cases g key nbKey x y
        · right; exact h
      · exact removeLink_linkAt_cases g key nbKey x y

theorem foldl_step_none (key : String) (l : List (Option String)) :
    ∀ {g : Graph} {x y : Nat}, g.linkAt x y = none →
      (l.foldl (Graph.removeNodeStep key) g).linkAt x y = none := by
  induction l with
  | nil => intro g x y h; exact h
  | cons hd tl ih =>
      intro g x y h
      rcases removeNodeStep_linkAt_cases key g hd x y with h1 | h1 <;>
        [exact ih (h1.trans h); exact ih h1]

theorem foldl_step_sub (key : String) (l : List (Option String)) :
    ∀ {g : Graph} {x y : Nat} {w : ℚ},
      (l.foldl (Graph.removeNodeStep key) g).linkAt x y = some w →
      g.linkAt x y = some w := by
  induction l with
  | nil => intro g x y w h; exact h
  | cons hd tl ih =>
      intro g x y w h
      have h1 := ih h
      rcases removeNodeStep_linkAt_cases key g hd x y with h2 | h2
      · rw [← h2]; exact h1
      · rw [h2] at h1; exact absurd h1 (by simp)

theorem foldl_kills (key : String) (l : List (Option String)) :
    ∀ {g : Graph} {i j : Nat} {ky : String}, g.isDirected = false →
      jsGet g.keyToIdTable key = some i → jsGet g.keyToIdTable ky = some j →
      some ky ∈ l →
      (l.foldl (Graph.removeNodeStep key) g).linkAt i j = none := by
  induction l with
  | nil => intro g i j ky _ _ _ h; simp at h
  | cons hd tl ih =>
      intro g i j ky hdir hki hkj hmem
      obtain ⟨e1, e2, e3, e4, e5⟩ := removeNodeStep_identity key g hd
      by_cases hhd : hd = some ky
      · subst hhd
        have hkill : (Graph.removeNodeStep key g (some ky)).linkAt i j = none := by
          unfold Graph.removeNodeStep
          dsimp only
          rw [if_neg (by
            obtain ⟨_, _, _, f4, _⟩ := removeLink_identity g key ky
            rw [f4, hdir]
            simp)]
          exact removeLink_kills hki hkj
        exact foldl_step_none key tl hkill
      · have hmem' : some ky ∈ tl := by
          rcases List.mem_cons.mp hmem with h | h
          · exact absurd h.symm hhd
          · exact h
        exact ih (e4.trans hdir) (e1 ▸ hki) (e1 ▸ hkj) hmem'

theorem NoDangling.rowD_live {g : Graph} (hND : NoDangling g) (i : Nat) :
    ∀ q ∈ (jsGet g.links i).getD [], q.1 ∈ jsKeys g.idToKeyTable := by
  cases h : jsGet g.links i with
  | none => simp
  | some row =>
      intro q hq
      exact hND _ (jsGet_mem h) q hq

theorem linksDelete_nd {g : Graph} (hND : NoDangling g) (i1 i2 : Nat) :
    NoDangling { g with links :=
                    jsSet g.links i1 (jsDelete ((jsGet g.links i1).getD []) i2) } := by
  intro p hp q hq
  rcases mem_jsSet_elim hp with h1 | h1
  · exact hND p h1 q hq
  · subst h1
    exact hND.rowD_live i1 q (mem_jsDelete_elim hq)

theorem linksSet_nd {g : Graph} (hND : NoDangling g) (i1 : Nat) {i2 : Nat}
    (hi2 : i2 ∈ jsKeys g.idToKeyTable) (w : ℚ) :
    NoDangling { g with links :=
                    jsSet g.links i1 (jsSet ((jsGet g.links i1).getD []) i2 w) } := by
  intro p hp q hq
  rcases mem_jsSet_elim hp with h1 | h1
  · exact hND p h1 q hq
  · subst h1
    rcases mem_jsSet_elim hq with h2 | h2
    · exact hND.rowD_live i1 q h2
    · subst h2
      exact hi2

theorem removeLink_nd {g : Graph} (hND : NoDangling g) (k1 k2 : String) :
    NoDangling (g.removeLink k1 k2).1 := by
  unfold Graph.removeLink
  split
  · exact hND
  · dsimp only
    cases hk1 : jsGet g.keyToIdTable k1 with
    | none => exact hND
    | some i1 =>
        cases hk2 : jsGet g.keyToIdTable k2 with
        | none => exact hND
        | some i2 =>
            have hND1 := linksDelete_nd hND i1 i2
            dsimp only
            split
            · exact linksDelete_nd hND1 i2 i1
            · exact hND1

theorem addNode_nd {g : Graph} (hND : NoDangling g) (k : String) :
    NoDangling (g.addNode k).1 := by
  unfold Graph.addNode
  cases h : jsGet g.keyToIdTable k with
  | some i => exact hND
  | none =>
      intro p hp q hq
      rcases mem_jsSet_elim hp with h1 | h1
      · exact mem_jsKeys_jsSet_of_mem _ _ (hND p h1 q hq)
      · subst h1; simp at hq

theorem addLinkStore_nd {g : Graph} (hWF : WF g) (hND : NoDangling g)
    (k1 k2 : String) (w : ℚ) : NoDangling (g.addLinkStore k1 k2 w) := by
  have hWF2 : WF ((g.addNode k1).1.addNode k2).1 :=
    addNode_WF (addNode_WF hWF k1) k2
  have hND2 : NoDangling ((g.addNode k1).1.addNode k2).1 :=
    addNode_nd (addNode_nd hND k1) k2
  unfold Graph.addLinkStore
  dsimp only
  cases hk1 : jsGet ((g.addNode k1).1.addNode k2).1.keyToIdTable k1 with
  | none => exact hND2
  | some i1 =>
      cases hk2 : jsGet ((g.addNode k1).1.addNode k2).1.keyToIdTable k2 with
      | none => exact hND2
      | some i2 =>
          have hi1 := hWF2.mem_i2k_of_k2i hk1
          have hi2 := hWF2.mem_i2k_of_k2i hk2
          have hND1 := linksSet_nd hND2 i1 hi2 w
          dsimp only
          split
          · exact linksSet_nd hND1 i2 hi1 w
          · exact hND1

theorem setMainNode_nd {g : Graph} (hND : NoDangling g) (k : String) :
    NoDangling (g.setMainNode k).1 := by
  unfold Graph.setMainNode
  split
  · intro p hp q hq; exact hND p hp q hq
  · exact hND

theorem removeNodeStep_symm {g : Graph} (hS : Symm g)
    (hdir : g.isDirected = false) (key : String) (nb : Option String) :
    Symm (Graph.removeNodeStep key g nb) := by
  cases nb with
  | none => exact hS
  | some nbKey =>
      unfold Graph.removeNodeStep
      dsimp only
      rw [if_neg (by
        obtain ⟨_, _, _, f4, _⟩ := removeLink_identity g key nbKey
        rw [f4, hdir]
        simp)]
      exact removeLink_symm hS hdir key nbKey

theorem removeNodeStep_nd {g : Graph} (hND : NoDangling g) (key : String)
    (nb : Option String) : NoDangling (Graph.removeNodeStep key g nb) := by
  cases nb with
  | none => exact hND
  | some nbKey =>
      unfold Graph.removeNodeStep
      dsimp only
      have h1 := removeLink_nd hND key nbKey
      split
      · exact removeLink_nd h1 nbKey key
      · exact h1

theorem foldl_removeNodeStep_symm (key : String) (l : List (Option String)) :
    ∀ {g : Graph}, Symm g → g.isDirected = false →
      Symm (l.foldl (Graph.removeNodeStep key) g) := by
  induction l with
  | nil => intro g hS _; exact hS
  | cons hd tl ih =>
      intro g hS hdir
      have e4 := (removeNodeStep_identity key g hd).2.2.2.1
      exact ih (removeNodeStep_symm hS hdir key hd) (e4.trans hdir)

theorem foldl_removeNodeStep_nd (key : String) (l : List (Option String)) :
    ∀ {g : Graph}, NoDangling g →
      NoDangling (l.foldl (Graph.removeNodeStep key) g) := by
  induction l with
  | nil => intro g hND; exact hND
  | cons hd tl ih =>
      intro g hND
      exact ih (removeNodeStep_nd hND key hd)

theorem removeNode_symm_nd {g : Graph} (hWF : WF g) (hS : Symm g)
    (hND : NoDangling g) (hdir : g.isDirected = false) (k : String) :
    Symm (g.removeNode k).1 ∧ NoDangling (g.removeNode k).1 := by
  unfold Graph.removeNode
  split
  · exact ⟨hS, hND⟩
  · rename_i hnode
    dsimp only
    simp only [Bool.not_eq_true', Bool.not_eq_false] at hnode
    obtain ⟨i, hki⟩ : ∃ i, jsGet g.keyToIdTable k = some i := by
      unfold Graph.hasNode at hnode
      cases h : jsGet g.keyToIdTable k with
      | none => rw [h] at hnode; simp at hnode
      | some i => exact ⟨i, rfl⟩
    set nbs := (g.connectedWith k).getD [] with hnbs
    set gl := nbs.foldl (Graph.removeNodeStep k) g with hgl
    have hWFl : WF gl := foldl_removeNodeStep_WF k nbs hWF
    have hSl : Symm gl := foldl_removeNodeStep_symm k nbs hS hdir
    obtain ⟨e1, e2, e3, e4, e5⟩ := foldl_removeNodeStep_identity k nbs g
    -- every cell in the removed node's row has been cleared by the loop
    have hout : ∀ j, gl.linkAt i j = none := by
      intro j
      cases hcell : gl.linkAt i j with
      | none => rfl
      | some w =>
          exfalso
          have hcellg : g.linkAt i j = some w := foldl_step_sub k nbs hcell
          obtain ⟨row', hrow', hc'⟩ := tableAt_mem hcellg
          have hjlive : j ∈ jsKeys g.idToKeyTable := hND _ hrow' _ hc'
          obtain ⟨ky, hky⟩ : ∃ ky, jsGet g.idToKeyTable j = some ky := by
            have := (jsGet_isSome_iff_mem g.idToKeyTable j).mpr hjlive
            cases hq : jsGet g.idToKeyTable j with
            | none => rw [hq] at this; simp at this
            | some a => exact ⟨a, rfl⟩
          have hrowi : jsGet g.links i = some row' := mem_jsGet hWF.linksNodup hrow'
          have hmem : some ky ∈ nbs := by
            rw [hnbs]
            unfold Graph.connectedWith
            rw [hki]
            simp only [Option.getD_some]
            rw [hrowi]
            simp only [Option.getD_some]
            rw [← hky]
            refine List.mem_map_of_mem (fun j => jsGet g.idToKeyTable j) ?_
            rw [mem_sortedKeys]
            exact mem_jsKeys_of_pair hc'
          exact absurd (foldl_kills k nbs hdir hki (hWF.k2i_of_i2k hky) hmem)
            (by rw [hcell]; simp)
    have hin : ∀ x, gl.linkAt x i = none := fun x => (hSl x i).trans (hout x)
    cases hkl : jsGet gl.keyToIdTable k with
    | none =>
        rw [e1, hki] at hkl
        cases hkl
    | some id =>
        have hid : id = i := by
          rw [e1, hki] at hkl
          injection hkl with h
          exact h.symm
        subst hid
        dsimp only
        constructor
        · intro x y
          show tableAt (jsDelete gl.links id) x y =
            tableAt (jsDelete gl.links id) y x
          rw [tableAt_jsDelete_row, tableAt_jsDelete_row]
          by_cases hx : x = id <;> by_cases hy : y = id
          · simp [hx, hy]
          · simp only [hx, hy, if_pos rfl, if_neg hy]
            exact (hin y).symm
          · simp only [hx, hy, if_pos rfl, if_neg hx]
            exact hin x
          · simp only [hx, hy, if_neg hx, if_neg hy]
            exact hSl x y
        · intro p hp q hq
          have hpm := mem_jsDelete_elim hp
          have hql : q.1 ∈ jsKeys gl.idToKeyTable :=
            foldl_removeNodeStep_nd k nbs hND p hpm q hq
          have hqne : q.1 ≠ id := by
            intro he
            have : gl.linkAt p.1 q.1 = some q.2 :=
              tableAt_eq_some_of_mem hWFl.linksNodup hpm
                (hWFl.rowsNodup p hpm) (by exact hq)
            rw [he] at this
            rw [hin p.1] at this
            cases this
          show q.1 ∈ jsKeys (jsDelete gl.idToKeyTable id)
          exact (mem_jsKeys_jsDelete_iff _ _ _).mpr ⟨hql, hqne⟩

theorem setMainNode_links (g : Graph) (k : String) :
    ((g.setMainNode k).1).links = g.links ∧
    ((g.setMainNode k).1).idToKeyTable = g.idToKeyTable := by
  unfold Graph.setMainNode
  split <;> exact ⟨rfl, rfl⟩

theorem setMainNode_symm {g : Graph} (hS : Symm g) (k : String) :
    Symm (g.setMainNode k).1 := by
  intro i j
  show tableAt ((g.setMainNode k).1).links i j = tableAt ((g.setMainNode k).1).links j i
  rw [(setMainNode_links g k).1]
  exact hS i j

theorem applyOp_addLink_cases' (g : Graph) (k1 k2 : String) (w : JSValue) :
    applyOp g (.addLink k1 k2 w) = g ∨
    (k1 ≠ k2 ∧ ∃ q : ℚ, applyOp g (.addLink k1 k2 w) = g.addLinkStore k1 k2 q) := by
  rcases addLink_cases g k1 k2 w with h | ⟨hne, q, h⟩ | h
  · left; simp [applyOp, h]
  · right; exact ⟨hne, q, by simp [applyOp, h]⟩
  · left; simp [applyOp, h]

theorem applyOp_usymm {g : Graph} (hWF : WF g) (hS : Symm g)
    (hND : NoDangling g) (hdir : g.isDirected = false) (op : Op) :
    Symm (applyOp g op) ∧ NoDangling (applyOp g op) := by
  cases op with
  | addNode k => exact ⟨addNode_symm hWF hS k, addNode_nd hND k⟩
  | addLink k1 k2 w =>
      rcases applyOp_addLink_cases' g k1 k2 w with h | ⟨hne, q, h⟩
      · rw [h]; exact ⟨hS, hND⟩
      · rw [h]
        exact ⟨addLinkStore_symm hWF hS hdir k1 k2 hne q,
          addLinkStore_nd hWF hND k1 k2 q⟩
  | removeLink k1 k2 =>
      exact ⟨removeLink_symm hS hdir k1 k2, removeLink_nd hND k1 k2⟩
  | removeNode k => exact removeNode_symm_nd hWF hS hND hdir k
  | setMainNode k => exact ⟨setMainNode_symm hS k, setMainNode_nd hND k⟩

theorem runOps_usymm (ops : List Op) :
    ∀ {g : Graph}, WF g → Symm g → NoDangling g → g.isDirected = false →
      Symm (runOps g ops) ∧ NoDangling (runOps g ops) := by
  induction ops with
  | nil => intro g _ hS hND _; exact ⟨hS, hND⟩
  | cons hd tl ih =>
      intro g hWF hS hND hdir
      obtain ⟨hS', hND'⟩ := applyOp_usymm hWF hS hND hdir hd
      exact ih (applyOp_WF hWF hd) hS' hND' ((applyOp_flags g hd).1.trans hdir)

theorem reachable_symm {w0 : Bool} {g : Graph}
    (h : ReachableFrom false w0 g) : Symm g := by
  obtain ⟨ops, rfl⟩ := h
  exact (runOps_usymm ops (WF_new false w0)
    (by intro i j; show tableAt [] i j = tableAt [] j i; rfl)
    (by intro p hp; simp [Graph.new] at hp) rfl).1

theorem hasLink_eq_linkAt {g : Graph} {a b : String} {ia ib : Nat}
    (ha : jsGet g.keyToIdTable a = some ia)
    (hb : jsGet g.keyToIdTable b = some ib) :
    g.hasLink a b = (g.linkAt ia ib).isSome := by
  unfold Graph.hasLink Graph.linkAt tableAt
  rw [ha, hb]
  dsimp only
  cases jsGet g.links ia <;> rfl

theorem linkWeight_eq_linkAt {g : Graph} {a b : String} {ia ib : Nat}
    (ha : jsGet g.keyToIdTable a = some ia)
    (hb : jsGet g.keyToIdTable b = some ib) :
    g.linkWeight a b = g.linkAt ia ib := by
  unfold Graph.linkWeight
  by_cases hl : g.hasLink a b
  · rw [if_neg (by simp [hl]), ha, hb]
    dsimp only
    rw [rowD_get]
    rfl
  · rw [if_pos (by simp [Bool.not_eq_true] at hl; simp [hl])]
    rw [hasLink_eq_linkAt ha hb] at hl
    cases hq : g.linkAt ia ib with
    | none => rfl
    | some w => rw [hq] at hl; simp at hl

/-- C7: in every undirected graph reachable by any sequence of operations the
link relation is symmetric: `hasLink(a,b) = hasLink(b,a)`, and the stored
weights agree: `linkWeight(a,b) = linkWeight(b,a)`. -/
theorem c7_undirected_symmetric {w0 : Bool} {g : Graph}
    (h : ReachableFrom false w0 g) (a b : String) :
    g.hasLink a b = g.hasLink b a ∧ g.linkWeight a b = g.linkWeight b a := by
  have hS : Symm g := reachable_symm h
  cases ha : jsGet g.keyToIdTable a with
  | none =>
      have hab : g.hasLink a b = false := by
        unfold Graph.hasLink
        rw [ha]
      have hba : g.hasLink b a = false := by
        unfold Graph.hasLink
        cases hb : jsGet g.keyToIdTable b with
        | none => rfl
        | some ib => rw [ha]
      refine ⟨hab.trans hba.symm, ?_⟩
      unfold Graph.linkWeight
      rw [if_pos (by rw [hab]; rfl), if_pos (by rw [hba]; rfl)]
  | some ia =>
      cases hb : jsGet g.keyToIdTable b with
      | none =>
          have hab : g.hasLink a b = false := by
            unfold Graph.hasLink
            rw [ha, hb]
          have hba : g.hasLink b a = false := by
            unfold Graph.hasLink
            rw [hb]
          refine ⟨hab.trans hba.symm, ?_⟩
          unfold Graph.linkWeight
          rw [if_pos (by rw [hab]; rfl), if_pos (by rw [hba]; rfl)]
      | some ib =>
          constructor
          · rw [hasLink_eq_linkAt ha hb, hasLink_eq_linkAt hb ha, hS ia ib]
          · rw [linkWeight_eq_linkAt ha hb, linkWeight_eq_linkAt hb ha, hS ia ib]

/-- C7 witness: the concrete undirected weighted graph with link `a–b`. -/
theorem c7_undirected_symmetric_witness :
    ReachableFrom false true c7Graph ∧
      (c7Graph.hasLink "a" "b" = c7Graph.hasLink "b" "a" ∧
        c7Graph.linkWeight "a" "b" = c7Graph.linkWeight "b" "a") :=
  ⟨⟨[.addLink "a" "b" (JSValue.number (.finite 3))], rfl⟩,
    c7_undirected_symmetric ⟨[.addLink "a" "b" (JSValue.number (.finite 3))], rfl⟩ "a" "b"⟩

/-! ### Dijkstra: basic state lemmas -/

theorem foldl_jsSet_const {α : Type} (ns : List String) :
    ∀ (m : List (String × α)) (v : α) (q : String),
    jsGet (ns.foldl (fun m n => jsSet m n v) m) q =
      if q ∈ ns then some v else jsGet m q := by
  induction ns with
  | nil => intro m v q; simp
  | cons n rest ih =>
      intro m v q
      rw [List.foldl_cons, ih]
      by_cases hq : q ∈ rest
      · simp [hq]
      · by_cases hq2 : q = n
        · subst hq2
          simp [hq, jsGet_jsSet_self]
        · simp [hq, hq2, jsGet_jsSet_ne m n q v (fun he => hq2 he.symm)]

theorem WF.hasNode_iff_mem_nodes {g : Graph} (hWF : WF g) (s : String) :
    g.hasNode s = true ↔ s ∈ g.nodes := by
  unfold Graph.hasNode Graph.nodes
  constructor
  · intro h
    cases hk : jsGet g.keyToIdTable s with
    | none => rw [hk] at h; simp at h
    | some i =>
        refine List.mem_filterMap.mpr ⟨i, ?_, hWF.i2k_of_k2i hk⟩
        rw [mem_sortedKeys]
        exact mem_jsKeys_of_pair (jsGet_mem (hWF.i2k_of_k2i hk))
  · intro h
    obtain ⟨i, _, hik⟩ := List.mem_filterMap.mp h
    rw [hWF.k2i_of_i2k hik]
    rfl

theorem nodes_nodup {g : Graph} (hWF : WF g) : g.nodes.Nodup := by
  unfold Graph.nodes
  have hkeys : (sortedKeys g.idToKeyTable).Nodup :=
    (sortedKeys_perm g.idToKeyTable).nodup_iff.mpr hWF.i2kNodup
  refine List.Nodup.filterMap ?_ hkeys
  intro i j s hi hj
  have hii := hWF.k2i_of_i2k hi
  have hjj := hWF.k2i_of_i2k hj
  rw [hii] at hjj
  simpa using hjj

/-- C10: for a live key `s`, `dijkstra(s, s)` returns the singleton path
`[s]` with distance 0: the first loop iteration extracts `s` and breaks
immediately, and the reconstruction stops at `previous[s] === null`. -/
theorem c10_dijkstra_self (g : Graph) (hWF : WF g) (s : String)
    (hs : g.hasNode s = true) :
    g.dijkstra s s = ([s], (0 : WithTop ℚ)) := by
  have hmem : s ∈ g.nodes := (hWF.hasNode_iff_mem_nodes s).mp hs
  unfold Graph.dijkstra
  rw [if_neg (by simp [hs])]
  have hloop : dijkstraLoop g s (2 * g.nodes.length + 1) (dijkstraInit g s) =
      { dijkstraInit g s with visited := [s], queue := [] } := by
    show dijkstraLoop g s (2 * g.nodes.length + 1)
        { distances := (dijkstraInit g s).distances,
          previous := (dijkstraInit g s).previous,
          visited := [], queue := [s] } = _
    rw [show (2 * g.nodes.length + 1) = Nat.succ (2 * g.nodes.length) from rfl]
    unfold dijkstraLoop
    simp [sortQueue, List.insertionSort]
  rw [hloop]
  have hprev : jsGet (dijkstraInit g s).previous s = some none := by
    unfold dijkstraInit
    dsimp only
    rw [foldl_jsSet_const]
    simp [hmem]
  have hbuild : buildPath (dijkstraInit g s).previous (g.nodes.length + 1) s []
      = some [s] := by
    rw [show (g.nodes.length + 1) = Nat.succ g.nodes.length from rfl]
    unfold buildPath
    rw [hprev]
  dsimp only
  rw [hbuild]
  have hdist : dGet (dijkstraInit g s).distances s = 0 := by
    unfold dijkstraInit dGet
    dsimp only
    rw [jsGet_jsSet_self]
    rfl
  simp [hdist]

/-- C10 witness: the weighted directed graph `wGraph` at its node `s`. -/
theorem c10_dijkstra_self_witness :
    WF wGraph ∧ wGraph.hasNode "s" = true ∧
      wGraph.dijkstra "s" "s" = (["s"], (0 : WithTop ℚ)) :=
  have hWF : WF wGraph :=
    ⟨by decide, by decide, by decide, by decide, by decide,
     by decide, by decide, by decide, by decide, by decide⟩
  ⟨hWF, by decide, c10_dijkstra_self wGraph hWF "s" (by decide)⟩

/-! ### Path utilities -/

theorem isPath_ne_nil {g : Graph} {p : List String} {a b : String}
    (h : g.isPath p a b) : p ≠ [] := by
  obtain ⟨h1, _, _⟩ := h
  intro he
  rw [he] at h1
  simp at h1

theorem isPath_single {g : Graph} {a b v : String} :
    g.isPath [v] a b ↔ a = v ∧ b = v := by
  unfold Graph.isPath
  constructor
  · rintro ⟨h1, h2, _⟩
    rw [List.head?_cons] at h1
    simp at h2
    injection h1 with h1
    exact ⟨h1.symm, h2.symm⟩
  · rintro ⟨rfl, rfl⟩
    exact ⟨by simp, by simp, List.chain'_singleton _⟩

theorem isPath_cons {g : Graph} {a c : String} {rest : List String}
    {s v : String} :
    g.isPath (a :: c :: rest) s v ↔
      s = a ∧ g.hasLink a c = true ∧ g.isPath (c :: rest) c v := by
  unfold Graph.isPath
  constructor
  · rintro ⟨h1, h2, h3⟩
    simp at h1
    rw [List.chain'_cons] at h3
    refine ⟨h1.symm, h3.1, by simp, ?_, h3.2⟩
    simpa using h2
  · rintro ⟨h1, h2, _, h3, h4⟩
    refine ⟨by simp [h1], by simpa using h3, ?_⟩
    rw [List.chain'_cons]
    exact ⟨h2, h4⟩

theorem isPath_cons_of {g : Graph} {a c x : String} {p : List String}
    (hl : g.hasLink a c = true) (hp : g.isPath p c x) :
    g.isPath (a :: p) a x := by
  cases p with
  | nil => exact absurd rfl (isPath_ne_nil hp)
  | cons hd tl =>
      have hhd : hd = c := by
        obtain ⟨h1, _, _⟩ := hp
        simpa using h1
      subst hhd
      exact isPath_cons.mpr ⟨rfl, hl, hp⟩

theorem isPath_snoc {g : Graph} {p : List String} {s u v : String}
    (hp : g.isPath p s u) (hl : g.hasLink u v = true) :
    g.isPath (p ++ [v]) s v := by
  obtain ⟨h1, h2, h3⟩ := hp
  refine ⟨?_, ?_, ?_⟩
  · cases p with
    | nil => simp at h1
    | cons hd tl => simpa using h1
  · simp
  · rw [List.chain'_append]
    refine ⟨h3, List.chain'_singleton _, ?_⟩
    intro x hx y hy
    simp at hy
    subst hy
    rw [h2] at hx
    simp at hx
    subst hx
    exact hl

theorem pathWeight_append_single {g : Graph} {p : List String} {u : String}
    (v : String) (hne : p ≠ []) (hlast : p.getLast? = some u) :
    g.pathWeight (p ++ [v]) = g.pathWeight p + g.wGet u v := by
  induction p with
  | nil => exact absurd rfl hne
  | cons hd tl ih =>
      cases tl with
      | nil =>
          have hu : u = hd := by simpa using hlast.symm
          subst hu
          show g.wGet u v + Graph.pathWeight g [v] = Graph.pathWeight g [u] + g.wGet u v
          show g.wGet u v + 0 = 0 + g.wGet u v
          rw [add_zero, zero_add]
      | cons hd2 tl2 =>
          have hlast' : (hd2 :: tl2).getLast? = some u := by
            rw [← hlast]
            exact (List.getLast?_cons_cons ..).symm
          show g.wGet hd hd2 + Graph.pathWeight g ((hd2 :: tl2) ++ [v]) = _
          rw [ih (by simp) hlast']
          show _ = g.wGet hd hd2 + Graph.pathWeight g (hd2 :: tl2) + g.wGet u v
          rw [add_assoc]

theorem wGet_nonneg {g : Graph} (hNN : NonnegWeights g) (a b : String) :
    0 ≤ g.wGet a b := by
  unfold Graph.wGet
  cases hw : g.linkWeight a b with
  | none => exact le_top
  | some q =>
      show (0 : WithTop ℚ) ≤ (q : WithTop ℚ)
      unfold Graph.linkWeight at hw
      split at hw
      · simp at hw
      · split at hw
        · rw [rowD_get] at hw
          obtain ⟨row, hrow, hcell⟩ := tableAt_mem hw
          have h0 : (0 : ℚ) ≤ q := hNN _ hrow _ hcell
          exact_mod_cast h0
        · simp at hw

theorem pathWeight_nonneg {g : Graph} (hNN : NonnegWeights g) :
    ∀ p : List String, 0 ≤ g.pathWeight p := by
  intro p
  induction p with
  | nil => exact le_refl 0
  | cons hd tl ih =>
      cases tl with
      | nil => exact le_refl 0
      | cons hd2 tl2 =>
          show (0 : WithTop ℚ) ≤ g.wGet hd hd2 + Graph.pathWeight g (hd2 :: tl2)
          exact add_nonneg (wGet_nonneg hNN hd hd2) ih

theorem hasNode_of_hasLink {g : Graph} {a b : String}
    (h : g.hasLink a b = true) : g.hasNode a = true ∧ g.hasNode b = true := by
  unfold Graph.hasLink at h
  unfold Graph.hasNode
  cases ha : jsGet g.keyToIdTable a with
  | none => rw [ha] at h; cases h
  | some ia =>
      cases hb : jsGet g.keyToIdTable b with
      | none => rw [ha, hb] at h; cases h
      | some ib => exact ⟨rfl, rfl⟩

theorem hasNode_some {g : Graph} {a : String} (h : g.hasNode a = true) :
    ∃ ia, jsGet g.keyToIdTable a = some ia := by
  unfold Graph.hasNode at h
  cases hq : jsGet g.keyToIdTable a with
  | none => rw [hq] at h; cases h
  | some ia => exact ⟨ia, rfl⟩

theorem wGet_ne_top_of_hasLink {g : Graph} {a b : String}
    (h : g.hasLink a b = true) : g.wGet a b ≠ ⊤ := by
  obtain ⟨hna, hnb⟩ := hasNode_of_hasLink h
  obtain ⟨ia, ha⟩ := hasNode_some hna
  obtain ⟨ib, hb⟩ := hasNode_some hnb
  rw [hasLink_eq_linkAt ha hb] at h
  obtain ⟨q, hq⟩ : ∃ q, g.linkAt ia ib = some q := by
    cases hqq : g.linkAt ia ib with
    | none => rw [hqq] at h; cases h
    | some q => exact ⟨q, rfl⟩
  unfold Graph.wGet
  rw [linkWeight_eq_linkAt ha hb, hq]
  simp

theorem pathWeight_append {g : Graph} :
    ∀ (p₁ p₂ : List String) (x y : String), p₁.getLast? = some x →
      p₂.head? = some y →
      g.pathWeight (p₁ ++ p₂) = g.pathWeight p₁ + g.wGet x y + g.pathWeight p₂ := by
  intro p₁
  induction p₁ with
  | nil => intro p₂ x y h _; simp at h
  | cons hd tl ih =>
      intro p₂ x y hlast hhead
      cases tl with
      | nil =>
          have hx : x = hd := by simpa using hlast.symm
          subst hx
          cases p₂ with
          | nil => simp at hhead
          | cons h2 t2 =>
              have hy : y = h2 := by simpa using hhead.symm
              subst hy
              show g.wGet x y + Graph.pathWeight g (y :: t2) = _
              show _ = Graph.pathWeight g [x] + g.wGet x y + Graph.pathWeight g (y :: t2)
              show _ = 0 + g.wGet x y + Graph.pathWeight g (y :: t2)
              rw [zero_add]
      | cons hd2 tl2 =>
          have hlast' : (hd2 :: tl2).getLast? = some x := by
            rw [← hlast]
            exact (List.getLast?_cons_cons ..).symm
          show g.wGet hd hd2 + Graph.pathWeight g ((hd2 :: tl2) ++ p₂) = _
          rw [ih p₂ x y hlast' hhead]
          show _ = g.wGet hd hd2 + Graph.pathWeight g (hd2 :: tl2) + g.wGet x y +
            Graph.pathWeight g p₂
          rw [add_assoc, add_assoc, add_assoc]

theorem isPath_decompose {g : Graph} (V : List String) :
    ∀ (p : List String) (a b : String), g.isPath p a b → a ∈ V → b ∉ V →
      ∃ x y p₁ p₂, p = p₁ ++ p₂ ∧ g.isPath p₁ a x ∧ x ∈ V ∧ y ∉ V ∧
        g.hasLink x y = true ∧ g.isPath p₂ y b := by
  intro p
  induction p with
  | nil => intro a b hp; exact absurd rfl (isPath_ne_nil hp)
  | cons hd tl ih =>
      intro a b hp ha hb
      have hhd : a = hd := by
        obtain ⟨h1, _, _⟩ := hp
        simpa using h1.symm
      subst hhd
      cases tl with
      | nil =>
          obtain ⟨_, h2⟩ := isPath_single.mp hp
          rw [h2] at hb
          exact absurd ha hb
      | cons c rest =>
          obtain ⟨_, hlink, hrest⟩ := isPath_cons.mp hp
          by_cases hc : c ∈ V
          · obtain ⟨x, y, p₁, p₂, heq, hp₁, hx, hy, hxy, hp₂⟩ :=
              ih c b hrest hc hb
            exact ⟨x, y, a :: p₁, p₂, by rw [heq]; rfl,
              isPath_cons_of hlink hp₁, hx, hy, hxy, hp₂⟩
          · exact ⟨a, c, [a], c :: rest, rfl,
              isPath_single.mpr ⟨rfl, rfl⟩, ha, hc, hlink, hrest⟩

/-! ### Neighbour-list lemmas for the algorithms -/

theorem connectedWith_entry_live {g : Graph} (hWF : WF g) {a : String}
    {l : List (Option String)} (h : g.connectedWith a = some l) :
    ∀ x ∈ l, ∀ v, x = some v → v ∈ g.nodes := by
  unfold Graph.connectedWith at h
  cases hk : jsGet g.keyToIdTable a with
  | none => rw [hk] at h; cases h
  | some i =>
      rw [hk] at h
      simp only [Option.some.injEq] at h
      subst h
      intro x hx v hv
      obtain ⟨j, _, hj⟩ := List.mem_map.mp hx
      subst hv
      rw [← (hWF.hasNode_iff_mem_nodes v)]
      unfold Graph.hasNode
      rw [hWF.k2i_of_i2k (by rw [hj] : jsGet g.idToKeyTable j = some v)]
      rfl

theorem connectedWith_mem_iff {g : Graph} (hWF : WF g) {a : String}
    {l : List (Option String)} (h : g.connectedWith a = some l) (v : String) :
    some v ∈ l ↔ g.hasLink a v = true := by
  unfold Graph.connectedWith at h
  cases hk : jsGet g.keyToIdTable a with
  | none => rw [hk] at h; cases h
  | some i =>
      rw [hk] at h
      simp only [Option.some.injEq] at h
      subst h
      constructor
      · intro hv
        obtain ⟨j, hj, hjv⟩ := List.mem_map.mp hv
        rw [mem_sortedKeys] at hj
        have hk2 : jsGet g.keyToIdTable v = some j := hWF.k2i_of_i2k hjv
        unfold Graph.hasLink
        rw [hk, hk2]
        dsimp only
        cases hr : jsGet g.links i with
        | none =>
            rw [hr] at hj
            simp [jsKeys] at hj
        | some row =>
            rw [hr] at hj
            simp only [Option.getD_some] at hj
            exact (jsGet_isSome_iff_mem row j).mpr hj
      · intro hv
        unfold Graph.hasLink at hv
        rw [hk] at hv
        cases hk2 : jsGet g.keyToIdTable v with
        | none => rw [hk2] at hv; cases hv
        | some j =>
            rw [hk2] at hv
            dsimp only at hv
            cases hr : jsGet g.links i with
            | none => rw [hr] at hv; cases hv
            | some row =>
                rw [hr] at hv
                dsimp only at hv
                refine List.mem_map.mpr ⟨j, ?_, hWF.i2k_of_k2i hk2⟩
                rw [mem_sortedKeys]
                simp only [Option.getD_some]
                exact (jsGet_isSome_iff_mem row j).mp hv

theorem connectedWith_isSome {g : Graph} {a : String}
    (h : g.hasNode a = true) : ∃ l, g.connectedWith a = some l := by
  unfold Graph.hasNode at h
  unfold Graph.connectedWith
  cases hk : jsGet g.keyToIdTable a with
  | none => rw [hk] at h; cases h
  | some i => exact ⟨_, rfl⟩

/-! ### Dijkstra: queue sorting and distance-map lemmas -/

theorem dGet_jsSet_self (m : List (String × WithTop ℚ)) (k : String)
    (v : WithTop ℚ) : dGet (jsSet m k v) k = v := by
  unfold dGet
  rw [jsGet_jsSet_self]
  rfl

theorem dGet_jsSet_ne (m : List (String × WithTop ℚ)) (k q : String)
    (v : WithTop ℚ) (h : k ≠ q) : dGet (jsSet m k v) q = dGet m q := by
  unfold dGet
  rw [jsGet_jsSet_ne m k q v h]

theorem sortQueue_perm (m : List (String × WithTop ℚ)) (q : List String) :
    List.Perm (sortQueue m q) q :=
  List.perm_insertionSort _ _

theorem sortQueue_sorted (m : List (String × WithTop ℚ)) (q : List String) :
    List.Sorted (fun a b => dGet m a ≤ dGet m b) (sortQueue m q) := by
  haveI h1 : IsTotal String (fun a b => dGet m a ≤ dGet m b) :=
    ⟨fun a b => le_total (dGet m a) (dGet m b)⟩
  haveI h2 : IsTrans String (fun a b => dGet m a ≤ dGet m b) :=
    ⟨fun a b c hab hbc => le_trans hab hbc⟩
  exact List.sorted_insertionSort _ _

theorem sortQueue_head_min {m : List (String × WithTop ℚ)} {q : List String}
    {c : String} {rest : List String} (h : sortQueue m q = c :: rest) :
    ∀ v ∈ q, dGet m c ≤ dGet m v := by
  intro v hv
  have hsorted := sortQueue_sorted m q
  rw [h] at hsorted
  have hv' : v ∈ c :: rest := by
    rw [← h]
    exact (sortQueue_perm m q).mem_iff.mpr hv
  rcases List.mem_cons.mp hv' with rfl | hvr
  · exact le_refl _
  · exact (List.sorted_cons.mp hsorted).1 v hvr

theorem sortQueue_nil {m : List (String × WithTop ℚ)} {q : List String}
    (h : sortQueue m q = []) : q = [] := by
  have hp := sortQueue_perm m q
  rw [h] at hp
  exact hp.symm.eq_nil

theorem indexOf_append_left {α : Type} [DecidableEq α] {l : List α}
    (l' : List α) {a : α} (h : a ∈ l) :
    (l ++ l').indexOf a = l.indexOf a := by
  induction l with
  | nil => cases h
  | cons x xs ih =>
      by_cases hax : a = x
      · subst hax
        rw [List.cons_append, List.indexOf_cons_self, List.indexOf_cons_self]
      · have hmem : a ∈ xs := by
          rcases List.mem_cons.mp h with h1 | h1
          · exact absurd h1 hax
          · exact h1
        rw [List.cons_append, List.indexOf_cons_ne _ (fun hh => hax hh.symm),
          List.indexOf_cons_ne _ (fun hh => hax hh.symm), ih hmem]

theorem indexOf_append_self {α : Type} [DecidableEq α] {l : List α} {a : α}
    (h : a ∉ l) : (l ++ [a]).indexOf a = l.length := by
  induction l with
  | nil => simp
  | cons x xs ih =>
      have hax : a ≠ x := fun hh => h (hh ▸ List.mem_cons_self x xs)
      have hmem : a ∉ xs := fun hh => h (List.mem_cons_of_mem x hh)
      rw [List.cons_append, List.indexOf_cons_ne _ (fun hh => hax hh.symm),
        ih hmem, List.length_cons]

theorem nodup_append_singleton {α : Type} [DecidableEq α] {l : List α} {a : α}
    (hl : l.Nodup) (ha : a ∉ l) : (l ++ [a]).Nodup := by
  rw [List.nodup_append]
  exact ⟨hl, List.nodup_singleton a,
    fun x hx hxa => ha ((List.mem_singleton.mp hxa) ▸ hx)⟩

/-! ### Dijkstra: relaxation-step lemmas -/

theorem relax_step_visited (g : Graph) (c : String) (st : DState)
    (x : Option String) : (dijkstraRelax g c st x).visited = st.visited := by
  cases x with
  | none => rfl
  | some n =>
      unfold dijkstraRelax
      dsimp only
      by_cases hnv : n ∈ st.visited
      · rw [if_pos hnv]
      · rw [if_neg hnv]
        by_cases halt : dGet st.distances c + g.wGet c n < dGet st.distances n
        · rw [if_pos halt]
        · rw [if_neg halt]

theorem relax_foldl_visited (g : Graph) (c : String) :
    ∀ (l : List (Option String)) (st : DState),
      (l.foldl (dijkstraRelax g c) st).visited = st.visited := by
  intro l
  induction l with
  | nil => intro st; rfl
  | cons x xs ih =>
      intro st
      rw [List.foldl_cons, ih, relax_step_visited]

theorem relax_step_queue_mono (g : Graph) (c : String) (st : DState)
    (x : Option String) : ∀ v ∈ st.queue, v ∈ (dijkstraRelax g c st x).queue := by
  intro v hv
  cases x with
  | none => exact hv
  | some n =>
      unfold dijkstraRelax
      dsimp only
      by_cases hnv : n ∈ st.visited
      · rw [if_pos hnv]; exact hv
      · rw [if_neg hnv]
        by_cases halt : dGet st.distances c + g.wGet c n < dGet st.distances n
        · rw [if_pos halt]
          dsimp only
          by_cases hq : n ∈ st.queue
          · rw [if_pos hq]; exact hv
          · rw [if_neg hq]; exact List.mem_append_left _ hv
        · rw [if_neg halt]; exact hv

theorem relax_step_dist_cases (g : Graph) (c : String) (st : DState)
    (x : Option String) (v : String) :
    dGet (dijkstraRelax g c st x).distances v = dGet st.distances v ∨
      (v ∉ st.visited ∧
        dGet (dijkstraRelax g c st x).distances v < dGet st.distances v) := by
  cases x with
  | none => exact Or.inl rfl
  | some n =>
      unfold dijkstraRelax
      dsimp only
      by_cases hnv : n ∈ st.visited
      · rw [if_pos hnv]; exact Or.inl rfl
      · rw [if_neg hnv]
        by_cases halt : dGet st.distances c + g.wGet c n < dGet st.distances n
        · rw [if_pos halt]
          dsimp only
          by_cases hvn : v = n
          · subst hvn
            refine Or.inr ⟨hnv, ?_⟩
            rw [dGet_jsSet_self]
            exact halt
          · refine Or.inl ?_
            rw [dGet_jsSet_ne _ _ _ _ (fun hh => hvn hh.symm)]
        · rw [if_neg halt]; exact Or.inl rfl

theorem relax_step_dist_le (g : Graph) (c : String) (st : DState)
    (x : Option String) (v : String) :
    dGet (dijkstraRelax g c st x).distances v ≤ dGet st.distances v := by
  rcases relax_step_dist_cases g c st x v with h | ⟨_, h⟩
  · exact le_of_eq h
  · exact le_of_lt h

theorem relax_step_dist_vis (g : Graph) (c : String) (st : DState)
    (x : Option String) {v : String} (hv : v ∈ st.visited) :
    dGet (dijkstraRelax g c st x).distances v = dGet st.distances v := by
  rcases relax_step_dist_cases g c st x v with h | ⟨hnv, _⟩
  · exact h
  · exact absurd hv hnv

theorem relax_foldl_dist_le (g : Graph) (c : String) :
    ∀ (l : List (Option String)) (st : DState) (v : String),
      dGet ((l.foldl (dijkstraRelax g c) st)).distances v ≤
        dGet st.distances v := by
  intro l
  induction l with
  | nil => intro st v; exact le_refl _
  | cons x xs ih =>
      intro st v
      rw [List.foldl_cons]
      exact le_trans (ih _ v) (relax_step_dist_le g c st x v)

theorem relax_foldl_dist_vis (g : Graph) (c : String) :
    ∀ (l : List (Option String)) (st : DState) {v : String}, v ∈ st.visited →
      dGet ((l.foldl (dijkstraRelax g c) st)).distances v =
        dGet st.distances v := by
  intro l
  induction l with
  | nil => intro st v _; rfl
  | cons x xs ih =>
      intro st v hv
      rw [List.foldl_cons]
      have hv' : v ∈ (dijkstraRelax g c st x).visited := by
        rw [relax_step_visited]
        exact hv
      rw [ih _ hv', relax_step_dist_vis g c st x hv]

/-! ### Dijkstra: optimality of the extracted minimum-distance node -/

theorem extraction_opt {g : Graph} (hNN : NonnegWeights g) {s : String}
    {st : DState} (hInv : DInv g s st) {c : String}
    (hmin : ∀ v ∈ st.queue, dGet st.distances c ≤ dGet st.distances v)
    (hcv : c ∉ st.visited) :
    ∀ p, g.isPath p s c → dGet st.distances c ≤ g.pathWeight p := by
  intro p hp
  by_cases hs : s ∈ st.visited
  · obtain ⟨x, y, p₁, p₂, heq, hp₁, hx, hy, hxy, hp₂⟩ :=
      isPath_decompose st.visited p s c hp hs hcv
    have hfront : dGet st.distances y ≤ dGet st.distances x + g.wGet x y :=
      hInv.frontier x hx y hxy hy
    have hyfin : dGet st.distances y ≠ ⊤ := by
      intro hh
      rw [hh] at hfront
      rcases WithTop.add_eq_top.mp (top_le_iff.mp hfront) with h | h
      · exact hInv.visFinite x hx h
      · exact wGet_ne_top_of_hasLink hxy h
    have hyq : y ∈ st.queue := by
      by_contra hyq
      exact hyfin (hInv.inftyOut y hyq hy)
    obtain ⟨h1, hlast, h3⟩ := hp₁
    obtain ⟨hhead, h5, h6⟩ := hp₂
    have hw : g.pathWeight p =
        g.pathWeight p₁ + g.wGet x y + g.pathWeight p₂ := by
      rw [heq]
      exact pathWeight_append p₁ p₂ x y hlast hhead
    calc dGet st.distances c ≤ dGet st.distances y := hmin y hyq
      _ ≤ dGet st.distances x + g.wGet x y := hfront
      _ ≤ g.pathWeight p₁ + g.wGet x y :=
          add_le_add_right (hInv.visitedOpt x hx p₁ ⟨h1, hlast, h3⟩) _
      _ ≤ g.pathWeight p₁ + g.wGet x y + g.pathWeight p₂ :=
          le_add_of_nonneg_right (pathWeight_nonneg hNN p₂)
      _ = g.pathWeight p := hw.symm
  · have hsq : s ∈ st.queue := hInv.sQV.resolve_right hs
    calc dGet st.distances c ≤ dGet st.distances s := hmin s hsq
      _ = 0 := hInv.sDist
      _ ≤ g.pathWeight p := pathWeight_nonneg hNN p

/-! ### Dijkstra: the two shapes of a loop iteration's first half -/

theorem pop_step_mid {g : Graph} (hNN : NonnegWeights g) {s : String}
    {st : DState} (hInv : DInv g s st) {c : String} {rest : List String}
    (hperm : st.queue.Perm (c :: rest))
    (hmin : ∀ v ∈ st.queue, dGet st.distances c ≤ dGet st.distances v)
    (hcv : c ∉ st.visited) :
    MidInv g s c { st with queue := rest, visited := st.visited ++ [c] } := by
  have hcq : c ∈ st.queue := hperm.mem_iff.mpr (List.mem_cons_self c rest)
  have hrq : ∀ v ∈ rest, v ∈ st.queue :=
    fun v hv => hperm.mem_iff.mpr (List.mem_cons_of_mem c hv)
  have hnodup : (c :: rest).Nodup := hperm.nodup_iff.mp hInv.qNodup
  have hcrest : c ∉ rest := (List.nodup_cons.mp hnodup).1
  have hrestnd : rest.Nodup := (List.nodup_cons.mp hnodup).2
  have hqmem : ∀ v, v ∈ st.queue ↔ (v = c ∨ v ∈ rest) := by
    intro v
    rw [hperm.mem_iff, List.mem_cons]
  have hopt := extraction_opt hNN hInv hmin hcv
  have hvmem : ∀ v : String, v ∈ st.visited ++ [c] ↔
      (v ∈ st.visited ∨ v = c) := by
    intro v
    rw [List.mem_append, List.mem_singleton]
  refine { qNodup := ?_, qLive := ?_, visLive := ?_, visNodup := ?_,
           qVis := ?_, sQV := ?_, sDist := ?_, sPrev := ?_, prevDom := ?_,
           inftyOut := ?_, qFinite := ?_, visFinite := ?_, distNonneg := ?_,
           prevSome := ?_, vNotS := ?_, visitedOpt := ?_, cVis := ?_,
           frontierP := ?_ }
  · exact hrestnd
  · intro v hv
    exact hInv.qLive v (hrq v hv)
  · intro v hv
    rcases (hvmem v).mp hv with h | rfl
    · exact hInv.visLive v h
    · exact hInv.qLive v hcq
  · exact nodup_append_singleton hInv.visNodup hcv
  · intro v hv hvv
    rcases (hvmem v).mp hvv with h | rfl
    · exact hInv.qVis v (hrq v hv) h
    · exact hcrest hv
  · rcases hInv.sQV with h | h
    · rcases (hqmem s).mp h with hsc | hr
      · exact Or.inr ((hvmem s).mpr (Or.inr hsc))
      · exact Or.inl hr
    · exact Or.inr ((hvmem s).mpr (Or.inl h))
  · exact hInv.sDist
  · exact hInv.sPrev
  · exact hInv.prevDom
  · intro v hvq hvv
    have hv1 : v ∉ st.visited := fun h => hvv ((hvmem v).mpr (Or.inl h))
    have hv2 : v ≠ c := fun h => hvv ((hvmem v).mpr (Or.inr h))
    have hvq' : v ∉ st.queue := by
      intro h
      rcases (hqmem v).mp h with h1 | h1
      · exact hv2 h1
      · exact hvq h1
    exact hInv.inftyOut v hvq' hv1
  · intro v hv
    exact hInv.qFinite v (hrq v hv)
  · intro v hv
    rcases (hvmem v).mp hv with h | rfl
    · exact hInv.visFinite v h
    · exact hInv.qFinite v hcq
  · exact hInv.distNonneg
  · intro v u hvu
    obtain ⟨ha, hb, hc2, hd, he, hf⟩ := hInv.prevSome v u hvu
    refine ⟨ha, (hvmem u).mpr (Or.inl hb), hc2, ?_, he, ?_⟩
    · rcases hd with h | h
      · rcases (hqmem v).mp h with h1 | h1
        · exact Or.inr ((hvmem v).mpr (Or.inr h1))
        · exact Or.inl h1
      · exact Or.inr ((hvmem v).mpr (Or.inl h))
    · intro hvis
      dsimp only
      rcases (hvmem v).mp hvis with h | hvc
      · rw [indexOf_append_left [c] hb, indexOf_append_left [c] h]
        exact hf h
      · rw [hvc, indexOf_append_left [c] hb, indexOf_append_self hcv]
        exact List.indexOf_lt_length.mpr hb
  · intro v hvs hv
    rcases hv with h | h
    · exact hInv.vNotS v hvs (Or.inl (hrq v h))
    · rcases (hvmem v).mp h with h1 | rfl
      · exact hInv.vNotS v hvs (Or.inr h1)
      · exact hInv.vNotS v hvs (Or.inl hcq)
  · intro v hv p hp
    rcases (hvmem v).mp hv with h | rfl
    · exact hInv.visitedOpt v h p hp
    · exact hopt p hp
  · exact (hvmem c).mpr (Or.inr rfl)
  · intro u hu hune v hl hv
    have hu' : u ∈ st.visited := by
      rcases (hvmem u).mp hu with h | h
      · exact h
      · exact absurd h hune
    have hv' : v ∉ st.visited := fun h => hv ((hvmem v).mpr (Or.inl h))
    exact hInv.frontier u hu' v hl hv'

theorem pop_skip_inv {g : Graph} {s : String} {st : DState}
    (hInv : DInv g s st) {c : String} {rest : List String}
    (hperm : st.queue.Perm (c :: rest)) (hcv : c ∈ st.visited) :
    DInv g s { st with queue := rest } := by
  have hcq : c ∈ st.queue := hperm.mem_iff.mpr (List.mem_cons_self c rest)
  have hrq : ∀ v ∈ rest, v ∈ st.queue :=
    fun v hv => hperm.mem_iff.mpr (List.mem_cons_of_mem c hv)
  have hnodup : (c :: rest).Nodup := hperm.nodup_iff.mp hInv.qNodup
  have hrestnd : rest.Nodup := (List.nodup_cons.mp hnodup).2
  have hqmem : ∀ v, v ∈ st.queue ↔ (v = c ∨ v ∈ rest) := by
    intro v
    rw [hperm.mem_iff, List.mem_cons]
  refine { qNodup := hrestnd, qLive := fun v hv => hInv.qLive v (hrq v hv),
           visLive := hInv.visLive, visNodup := hInv.visNodup,
           qVis := fun v hv => hInv.qVis v (hrq v hv),
           sQV := ?_, sDist := hInv.sDist, sPrev := hInv.sPrev,
           prevDom := hInv.prevDom, inftyOut := ?_,
           qFinite := fun v hv => hInv.qFinite v (hrq v hv),
           visFinite := hInv.visFinite, distNonneg := hInv.distNonneg,
           prevSome := ?_, vNotS := ?_, visitedOpt := hInv.visitedOpt,
           frontier := hInv.frontier }
  · rcases hInv.sQV with h | h
    · rcases (hqmem s).mp h with hsc | hr
      · refine Or.inr ?_
        rw [hsc]
        exact hcv
      · exact Or.inl hr
    · exact Or.inr h
  · intro v hvq hvv
    refine hInv.inftyOut v ?_ hvv
    intro h
    rcases (hqmem v).mp h with rfl | h1
    · exact hvv hcv
    · exact hvq h1
  · intro v u hvu
    obtain ⟨ha, hb, hc2, hd, he, hf⟩ := hInv.prevSome v u hvu
    refine ⟨ha, hb, hc2, ?_, he, hf⟩
    rcases hd with h | h
    · rcases (hqmem v).mp h with rfl | h1
      · exact Or.inr hcv
      · exact Or.inl h1
    · exact Or.inr h
  · intro v hvs hv
    rcases hv with h | h
    · exact hInv.vNotS v hvs (Or.inl (hrq v h))
    · exact hInv.vNotS v hvs (Or.inr h)

/-! ### Dijkstra: the relaxation fold preserves the mid-iteration invariant -/

theorem relax_step_mid {g : Graph} (hWF : WF g) (hNN : NonnegWeights g)
    {s c : String} {st : DState} (h : MidInv g s c st)
    (x : Option String) (hx : ∀ v, x = some v → g.hasLink c v = true) :
    MidInv g s c (dijkstraRelax g c st x) := by
  cases x with
  | none => exact h
  | some n =>
      have hlink : g.hasLink c n = true := hx n rfl
      unfold dijkstraRelax
      dsimp only
      by_cases hnv : n ∈ st.visited
      · rw [if_pos hnv]
        exact h
      · rw [if_neg hnv]
        by_cases halt : dGet st.distances c + g.wGet c n < dGet st.distances n
        · rw [if_pos halt]
          have halt0 : 0 ≤ dGet st.distances c + g.wGet c n :=
            add_nonneg (h.distNonneg c) (wGet_nonneg hNN c n)
          have hns : n ≠ s := by
            intro hh
            have h1 : dGet st.distances n = 0 := by
              rw [hh]
              exact h.sDist
            rw [h1] at halt
            exact absurd (lt_of_le_of_lt halt0 halt) (lt_irrefl 0)
          have hcn : c ≠ n := fun hh => hnv (hh ▸ h.cVis)
          have hnlive : n ∈ g.nodes :=
            (hWF.hasNode_iff_mem_nodes n).mp (hasNode_of_hasLink hlink).2
          have hqmem : ∀ v : String,
              v ∈ (if n ∈ st.queue then st.queue else st.queue ++ [n]) ↔
                (v ∈ st.queue ∨ v = n) := by
            intro v
            by_cases hq : n ∈ st.queue
            · rw [if_pos hq]
              constructor
              · exact Or.inl
              · intro hv
                rcases hv with hv | hveq
                · exact hv
                · rw [hveq]
                  exact hq
            · rw [if_neg hq, List.mem_append, List.mem_singleton]
          have hdist : ∀ v : String,
              dGet (jsSet st.distances n (dGet st.distances c + g.wGet c n)) v =
                if v = n then dGet st.distances c + g.wGet c n
                else dGet st.distances v := by
            intro v
            by_cases hv : v = n
            · rw [hv, if_pos rfl, dGet_jsSet_self]
            · rw [if_neg hv, dGet_jsSet_ne _ _ _ _ (fun hh => hv hh.symm)]
          have hprev : ∀ v : String,
              jsGet (jsSet st.previous n (some c)) v =
                if v = n then some (some c) else jsGet st.previous v := by
            intro v
            by_cases hv : v = n
            · rw [hv, if_pos rfl, jsGet_jsSet_self]
            · rw [if_neg hv, jsGet_jsSet_ne _ _ _ _ (fun hh => hv hh.symm)]
          refine { qNodup := ?_, qLive := ?_, visLive := ?_, visNodup := ?_,
                   qVis := ?_, sQV := ?_, sDist := ?_, sPrev := ?_,
                   prevDom := ?_, inftyOut := ?_, qFinite := ?_,
                   visFinite := ?_, distNonneg := ?_, prevSome := ?_,
                   vNotS := ?_, visitedOpt := ?_, cVis := ?_,
                   frontierP := ?_ }
          · dsimp only
            by_cases hq : n ∈ st.queue
            · rw [if_pos hq]
              exact h.qNodup
            · rw [if_neg hq]
              exact nodup_append_singleton h.qNodup hq
          · intro v hv
            rcases (hqmem v).mp hv with h1 | hveq
            · exact h.qLive v h1
            · rw [hveq]
              exact hnlive
          · intro v hv
            exact h.visLive v hv
          · exact h.visNodup
          · intro v hv hvv
            rcases (hqmem v).mp hv with h1 | hveq
            · exact h.qVis v h1 hvv
            · rw [hveq] at hvv
              exact hnv hvv
          · rcases h.sQV with h1 | h1
            · exact Or.inl ((hqmem s).mpr (Or.inl h1))
            · exact Or.inr h1
          · dsimp only
            rw [hdist s, if_neg (fun hh => hns hh.symm)]
            exact h.sDist
          · dsimp only
            rw [hprev s, if_neg (fun hh => hns hh.symm)]
            exact h.sPrev
          · intro v hv
            dsimp only
            rw [hprev v]
            by_cases hveq : v = n
            · rw [if_pos hveq]
              rfl
            · rw [if_neg hveq]
              exact h.prevDom v hv
          · intro v hvq hvv
            have hvn : v ≠ n := fun hh => hvq ((hqmem v).mpr (Or.inr hh))
            have hvq' : v ∉ st.queue := fun h1 => hvq ((hqmem v).mpr (Or.inl h1))
            dsimp only
            rw [hdist v, if_neg hvn]
            exact h.inftyOut v hvq' hvv
          · intro v hv
            dsimp only
            rw [hdist v]
            by_cases hveq : v = n
            · rw [if_pos hveq]
              exact ne_top_of_lt halt
            · rw [if_neg hveq]
              exact h.qFinite v (((hqmem v).mp hv).resolve_right hveq)
          · intro v hv
            have hvn : v ≠ n := fun hh => hnv (hh ▸ hv)
            dsimp only
            rw [hdist v, if_neg hvn]
            exact h.visFinite v hv
          · intro v
            dsimp only
            rw [hdist v]
            by_cases hveq : v = n
            · rw [if_pos hveq]
              exact halt0
            · rw [if_neg hveq]
              exact h.distNonneg v
          · intro v u hvu
            dsimp only at hvu
            rw [hprev v] at hvu
            by_cases hveq : v = n
            · rw [if_pos hveq] at hvu
              injection hvu with hvu2
              injection hvu2 with hvu3
              refine ⟨?_, ?_, ?_, ?_, ?_, ?_⟩
              · rw [hveq, ← hvu3]
                exact hlink
              · rw [← hvu3]
                exact h.cVis
              · have hun : ¬ u = n := fun hh => hcn (hvu3.trans hh)
                dsimp only
                rw [hdist v, if_pos hveq, hdist u, if_neg hun, ← hvu3, hveq]
              · exact Or.inl ((hqmem v).mpr (Or.inr hveq))
              · intro hh
                exact hns (hveq ▸ hh)
              · intro hvis
                exact absurd (hveq ▸ hvis) hnv
            · rw [if_neg hveq] at hvu
              obtain ⟨ha, hb, hc2, hd, he, hf⟩ := h.prevSome v u hvu
              have hun : u ≠ n := fun hh => hnv (hh ▸ hb)
              refine ⟨ha, hb, ?_, ?_, he, hf⟩
              · dsimp only
                rw [hdist v, if_neg hveq, hdist u, if_neg hun]
                exact hc2
              · rcases hd with h1 | h1
                · exact Or.inl ((hqmem v).mpr (Or.inl h1))
                · exact Or.inr h1
          · intro v hvs hv
            dsimp only
            rw [hprev v]
            by_cases hveq : v = n
            · rw [if_pos hveq]
              exact ⟨c, rfl⟩
            · rw [if_neg hveq]
              refine h.vNotS v hvs ?_
              rcases hv with h1 | h1
              · exact Or.inl (((hqmem v).mp h1).resolve_right hveq)
              · exact Or.inr h1
          · intro v hv p hp
            have hvn : v ≠ n := fun hh => hnv (hh ▸ hv)
            dsimp only
            rw [hdist v, if_neg hvn]
            exact h.visitedOpt v hv p hp
          · exact h.cVis
          · intro u hu hune v hl hv
            have hun : u ≠ n := fun hh => hnv (hh ▸ hu)
            dsimp only
            rw [hdist u, if_neg hun]
            by_cases hveq : v = n
            · rw [hdist v, if_pos hveq]
              refine le_trans (le_of_lt ?_) (h.frontierP u hu hune v hl hv)
              rw [hveq]
              exact halt
            · rw [hdist v, if_neg hveq]
              exact h.frontierP u hu hune v hl hv
        · rw [if_neg halt]
          exact h

theorem relax_foldl_mid {g : Graph} (hWF : WF g) (hNN : NonnegWeights g)
    {s c : String} :
    ∀ (l : List (Option String)) (st : DState), MidInv g s c st →
      (∀ x ∈ l, ∀ v, x = some v → g.hasLink c v = true) →
      MidInv g s c (l.foldl (dijkstraRelax g c) st) := by
  intro l
  induction l with
  | nil => intro st h _; exact h
  | cons x xs ih =>
      intro st h hl
      rw [List.foldl_cons]
      refine ih _ (relax_step_mid hWF hNN h x (hl x (List.mem_cons_self x xs))) ?_
      intro y hy v hv
      exact hl y (List.mem_cons_of_mem x hy) v hv

/-! ### Dijkstra: the fold establishes the frontier bound at the new node -/

theorem relax_foldl_estab {g : Graph} {c vtx : String} :
    ∀ (l : List (Option String)) (st : DState), some vtx ∈ l →
      c ∈ st.visited → vtx ∉ st.visited →
      dGet ((l.foldl (dijkstraRelax g c) st)).distances vtx ≤
        dGet st.distances c + g.wGet c vtx := by
  intro l
  induction l with
  | nil => intro st hmem; cases hmem
  | cons x xs ih =>
      intro st hmem hc hvtx
      rw [List.foldl_cons]
      by_cases hx : x = some vtx
      · subst hx
        have hest : dGet (dijkstraRelax g c st (some vtx)).distances vtx ≤
            dGet st.distances c + g.wGet c vtx := by
          unfold dijkstraRelax
          dsimp only
          rw [if_neg hvtx]
          by_cases halt : dGet st.distances c + g.wGet c vtx <
              dGet st.distances vtx
          · rw [if_pos halt]
            dsimp only
            rw [dGet_jsSet_self]
          · rw [if_neg halt]
            exact not_lt.mp halt
        exact le_trans (relax_foldl_dist_le g c xs _ vtx) hest
      · have hmem' : some vtx ∈ xs := by
          rcases List.mem_cons.mp hmem with h1 | h1
          · exact absurd h1.symm hx
          · exact h1
        have hc' : c ∈ (dijkstraRelax g c st x).visited := by
          rw [relax_step_visited]
          exact hc
        have hvtx' : vtx ∉ (dijkstraRelax g c st x).visited := by
          rw [relax_step_visited]
          exact hvtx
        have hcd : dGet (dijkstraRelax g c st x).distances c =
            dGet st.distances c := relax_step_dist_vis g c st x hc
        have hih := ih (dijkstraRelax g c st x) hmem' hc' hvtx'
        rw [hcd] at hih
        exact hih

/-! ### Dijkstra: the termination measure decreases -/

theorem relax_step_measure {g : Graph} (hWF : WF g) {c : String} {st : DState}
    (x : Option String) (hx : ∀ v, x = some v → g.hasLink c v = true) :
    dMeasure g (dijkstraRelax g c st x) ≤ dMeasure g st := by
  cases x with
  | none => exact le_refl _
  | some n =>
      have hlink : g.hasLink c n = true := hx n rfl
      have hnlive : n ∈ g.nodes :=
        (hWF.hasNode_iff_mem_nodes n).mp (hasNode_of_hasLink hlink).2
      unfold dijkstraRelax
      dsimp only
      by_cases hnv : n ∈ st.visited
      · rw [if_pos hnv]
      · rw [if_neg hnv]
        by_cases halt : dGet st.distances c + g.wGet c n < dGet st.distances n
        · rw [if_pos halt]
          by_cases hq : n ∈ st.queue
          · unfold dMeasure
            dsimp only
            rw [if_pos hq]
          · unfold dMeasure
            dsimp only
            rw [if_neg hq]
            have hnU : n ∈ (g.nodes.toFinset \ st.visited.toFinset) \
                st.queue.toFinset := by
              rw [Finset.mem_sdiff, Finset.mem_sdiff]
              refine ⟨⟨List.mem_toFinset.mpr hnlive, ?_⟩, ?_⟩
              · intro hh
                exact hnv (List.mem_toFinset.mp hh)
              · intro hh
                exact hq (List.mem_toFinset.mp hh)
            have hset : (g.nodes.toFinset \ st.visited.toFinset) \
                (st.queue ++ [n]).toFinset =
                ((g.nodes.toFinset \ st.visited.toFinset) \
                  st.queue.toFinset).erase n := by
              ext y
              simp only [Finset.mem_sdiff, Finset.mem_erase,
                List.toFinset_append, Finset.mem_union, List.mem_toFinset,
                List.toFinset_cons, List.toFinset_nil, Finset.mem_insert,
                Finset.not_mem_empty, or_false]
              tauto
            rw [hset, List.length_append, List.length_singleton,
              Finset.card_erase_of_mem hnU]
            have hpos : 0 < ((g.nodes.toFinset \ st.visited.toFinset) \
                st.queue.toFinset).card := Finset.card_pos.mpr ⟨n, hnU⟩
            omega
        · rw [if_neg halt]

theorem relax_foldl_measure {g : Graph} (hWF : WF g) {c : String} :
    ∀ (l : List (Option String)) (st : DState),
      (∀ x ∈ l, ∀ v, x = some v → g.hasLink c v = true) →
      dMeasure g (l.foldl (dijkstraRelax g c) st) ≤ dMeasure g st := by
  intro l
  induction l with
  | nil => intro st _; exact le_refl _
  | cons x xs ih =>
      intro st hl
      rw [List.foldl_cons]
      exact le_trans
        (ih _ (fun y hy v hv => hl y (List.mem_cons_of_mem x hy) v hv))
        (relax_step_measure hWF x (hl x (List.mem_cons_self x xs)))

theorem dMeasure_pop_skip {g : Graph} {st : DState} {c : String}
    {rest : List String} (hperm : st.queue.Perm (c :: rest))
    (hcv : c ∈ st.visited) :
    dMeasure g { st with queue := rest } + 1 = dMeasure g st := by
  have hlen : st.queue.length = rest.length + 1 := by
    rw [hperm.length_eq, List.length_cons]
  have hfin : st.queue.toFinset = insert c rest.toFinset := by
    ext y
    rw [List.mem_toFinset, hperm.mem_iff, List.mem_cons, Finset.mem_insert,
      List.mem_toFinset]
  have hU : (g.nodes.toFinset \ st.visited.toFinset) \ rest.toFinset =
      (g.nodes.toFinset \ st.visited.toFinset) \ st.queue.toFinset := by
    rw [hfin]
    ext y
    simp only [Finset.mem_sdiff, Finset.mem_insert, List.mem_toFinset]
    constructor
    · rintro ⟨⟨hy1, hy2⟩, hy3⟩
      refine ⟨⟨hy1, hy2⟩, ?_⟩
      rintro (hyc | hy4)
      · exact hy2 (hyc.symm ▸ hcv)
      · exact hy3 hy4
    · rintro ⟨⟨hy1, hy2⟩, hy3⟩
      exact ⟨⟨hy1, hy2⟩, fun hy4 => hy3 (Or.inr hy4)⟩
  unfold dMeasure
  dsimp only
  rw [hU, hlen]
  omega

theorem dMeasure_visit {g : Graph} {st : DState} {c : String}
    {rest : List String} (hperm : st.queue.Perm (c :: rest)) :
    dMeasure g { st with queue := rest, visited := st.visited ++ [c] } + 1 =
      dMeasure g st := by
  have hlen : st.queue.length = rest.length + 1 := by
    rw [hperm.length_eq, List.length_cons]
  have hfin : st.queue.toFinset = insert c rest.toFinset := by
    ext y
    rw [List.mem_toFinset, hperm.mem_iff, List.mem_cons, Finset.mem_insert,
      List.mem_toFinset]
  have hU : (g.nodes.toFinset \ (st.visited ++ [c]).toFinset) \
      rest.toFinset =
      (g.nodes.toFinset \ st.visited.toFinset) \ st.queue.toFinset := by
    rw [hfin]
    ext y
    simp only [Finset.mem_sdiff, Finset.mem_insert, List.mem_toFinset,
      List.toFinset_append, Finset.mem_union, List.toFinset_cons,
      List.toFinset_nil, Finset.not_mem_empty, or_false]
    tauto
  unfold dMeasure
  dsimp only
  rw [hU, hlen]
  omega

/-! ### Dijkstra: a full loop iteration -/

theorem visit_relax_spec {g : Graph} (hWF : WF g) (hNN : NonnegWeights g)
    {s : String} {st : DState} (hInv : DInv g s st) {c : String}
    {rest : List String}
    (hperm : st.queue.Perm (c :: rest))
    (hmin : ∀ v ∈ st.queue, dGet st.distances c ≤ dGet st.distances v)
    (hcv : c ∉ st.visited) {nbs : List (Option String)}
    (hnbs : g.connectedWith c = some nbs) :
    DInv g s (nbs.foldl (dijkstraRelax g c)
      { st with queue := rest, visited := st.visited ++ [c] }) ∧
    dMeasure g (nbs.foldl (dijkstraRelax g c)
      { st with queue := rest, visited := st.visited ++ [c] }) + 1 ≤
      dMeasure g st := by
  have hmid := pop_step_mid hNN hInv hperm hmin hcv
  have hnb_link : ∀ x ∈ nbs, ∀ v, x = some v → g.hasLink c v = true := by
    intro x hx v hv
    rw [hv] at hx
    exact (connectedWith_mem_iff hWF hnbs v).mp hx
  have hmid2 := relax_foldl_mid hWF hNN nbs _ hmid hnb_link
  constructor
  · refine { toDBase := hmid2.toDBase, frontier := ?_ }
    intro u hu v hl hv
    by_cases huc : u = c
    · have hvnb : some v ∈ nbs := by
        rw [huc] at hl
        exact (connectedWith_mem_iff hWF hnbs v).mpr hl
      rw [relax_foldl_visited g c nbs] at hv
      have hest := @relax_foldl_estab g c v nbs _ hvnb hmid.cVis hv
      have hcd := relax_foldl_dist_vis g c nbs _ hmid.cVis
      rw [huc, hcd]
      exact hest
    · exact hmid2.frontierP u hu huc v hl hv
  · have h1 := @dMeasure_visit g st c rest hperm
    have h2 := relax_foldl_measure hWF nbs
      { st with queue := rest, visited := st.visited ++ [c] } hnb_link
    omega

theorem dijkstraLoop_spec {g : Graph} (hWF : WF g) (hNN : NonnegWeights g)
    {s : String} (e : String) :
    ∀ (fuel : Nat) (st : DState), DInv g s st → dMeasure g st < fuel →
      DBase g s (dijkstraLoop g e fuel st) ∧
      (e ∈ (dijkstraLoop g e fuel st).visited ∨
        ((dijkstraLoop g e fuel st).queue = [] ∧
          e ∉ (dijkstraLoop g e fuel st).visited ∧
          DInv g s (dijkstraLoop g e fuel st))) := by
  intro fuel
  induction fuel with
  | zero =>
      intro st _ hm
      exact absurd hm (Nat.not_lt_zero _)
  | succ n ih =>
      intro st hInv hm
      cases hsort : sortQueue st.distances st.queue with
      | nil =>
          have hqnil : st.queue = [] := sortQueue_nil hsort
          have hkey : dijkstraLoop g e (n + 1) st =
              { st with queue := ([] : List String) } := by
            unfold dijkstraLoop
            rw [hsort]
          have hst : { st with queue := ([] : List String) } = st := by
            rw [← hqnil]
          rw [hkey, hst]
          by_cases he : e ∈ st.visited
          · exact ⟨hInv.toDBase, Or.inl he⟩
          · exact ⟨hInv.toDBase, Or.inr ⟨hqnil, he, hInv⟩⟩
      | cons c rest =>
          have hperm : st.queue.Perm (c :: rest) := by
            have hp := sortQueue_perm st.distances st.queue
            rw [hsort] at hp
            exact hp.symm
          have hmin := sortQueue_head_min hsort
          by_cases hc : c ∈ st.visited
          · have hkey : dijkstraLoop g e (n + 1) st =
                dijkstraLoop g e n { st with queue := rest } := by
              conv_lhs => unfold dijkstraLoop
              rw [hsort]
              dsimp only
              rw [if_pos hc]
            rw [hkey]
            have hms : dMeasure g { st with queue := rest } + 1 =
                dMeasure g st := dMeasure_pop_skip hperm hc
            exact ih _ (pop_skip_inv hInv hperm hc) (by omega)
          · by_cases hce : c = e
            · have hkey : dijkstraLoop g e (n + 1) st =
                  { st with queue := rest,
                            visited := st.visited ++ [c] } := by
                conv_lhs => unfold dijkstraLoop
                rw [hsort]
                dsimp only
                rw [if_neg hc, if_pos hce]
              rw [hkey]
              have hmid := pop_step_mid hNN hInv hperm hmin hc
              refine ⟨hmid.toDBase, Or.inl ?_⟩
              rw [← hce]
              exact List.mem_append_right _ (List.mem_singleton_self c)
            · have hclive : c ∈ g.nodes :=
                hInv.qLive c (hperm.mem_iff.mpr (List.mem_cons_self c rest))
              have hcnode : g.hasNode c = true :=
                (hWF.hasNode_iff_mem_nodes c).mpr hclive
              obtain ⟨nbs, hnbs⟩ := connectedWith_isSome hcnode
              have hkey : dijkstraLoop g e (n + 1) st =
                  dijkstraLoop g e n (nbs.foldl (dijkstraRelax g c)
                    { st with queue := rest,
                              visited := st.visited ++ [c] }) := by
                conv_lhs => unfold dijkstraLoop
                rw [hsort]
                dsimp only
                rw [if_neg hc, if_neg hce, hnbs]
              rw [hkey]
              obtain ⟨hInv2, hm2⟩ :=
                visit_relax_spec hWF hNN hInv hperm hmin hc hnbs
              exact ih _ hInv2 (by omega)

/-! ### Dijkstra: path reconstruction -/

theorem buildPath_root {prev : List (String × Option String)} {v : String}
    (hprev : jsGet prev v = some none) (fuel : Nat) (acc : List String) :
    buildPath prev (fuel + 1) v acc = some (v :: acc) := by
  unfold buildPath
  rw [hprev]

theorem buildPath_spec {g : Graph} {s : String} {st : DState}
    (hB : DBase g s st) :
    ∀ (fuel : Nat) (v : String) (acc : List String), v ∈ st.visited →
      st.visited.indexOf v < fuel →
      ∃ q : List String, buildPath st.previous fuel v acc = some (q ++ acc) ∧
        g.isPath q s v ∧ g.pathWeight q = dGet st.distances v := by
  intro fuel
  induction fuel with
  | zero =>
      intro v acc _ hidx
      exact absurd hidx (Nat.not_lt_zero _)
  | succ n ih =>
      intro v acc hv hidx
      cases hpv : jsGet st.previous v with
      | none =>
          have hd := hB.prevDom v (hB.visLive v hv)
          rw [hpv] at hd
          simp at hd
      | some o =>
          cases o with
          | none =>
              have hvs : v = s := by
                by_contra hvs
                obtain ⟨u, hu⟩ := hB.vNotS v hvs (Or.inr hv)
                rw [hpv] at hu
                injection hu with hu2
                exact Option.noConfusion hu2
              refine ⟨[v], ?_, ?_, ?_⟩
              · unfold buildPath
                rw [hpv]
                rfl
              · rw [hvs]
                exact isPath_single.mpr ⟨rfl, rfl⟩
              · show (0 : WithTop ℚ) = dGet st.distances v
                rw [hvs, hB.sDist]
          | some u =>
              obtain ⟨hlink, huvis, hdeq, _, _, hidxlt⟩ := hB.prevSome v u hpv
              have hidxu : st.visited.indexOf u < n :=
                lt_of_lt_of_le (hidxlt hv) (Nat.lt_succ_iff.mp hidx)
              obtain ⟨q', hbp, hpath, hwt⟩ := ih u (v :: acc) huvis hidxu
              obtain ⟨hh1, hh2, hh3⟩ := hpath
              refine ⟨q' ++ [v], ?_, ?_, ?_⟩
              · unfold buildPath
                rw [hpv]
                dsimp only
                rw [hbp, List.append_assoc]
                rfl
              · exact isPath_snoc ⟨hh1, hh2, hh3⟩ hlink
              · rw [pathWeight_append_single v
                  (isPath_ne_nil (g := g) (a := s) (b := u) ⟨hh1, hh2, hh3⟩) hh2,
                  hwt, hdeq]

theorem visited_le_nodes {g : Graph} {s : String} {st : DState}
    (hB : DBase g s st) : st.visited.length ≤ g.nodes.length :=
  (List.subperm_of_subset hB.visNodup
    (fun v hv => hB.visLive v hv)).length_le

/-! ### Dijkstra: the initial state -/

theorem dijkstraInit_dGet (g : Graph) (s v : String) :
    dGet (dijkstraInit g s).distances v = if v = s then 0 else ⊤ := by
  unfold dijkstraInit
  dsimp only
  by_cases hv : v = s
  · rw [if_pos hv, hv, dGet_jsSet_self]
  · rw [if_neg hv, dGet_jsSet_ne _ _ _ _ (fun hh => hv hh.symm)]
    unfold dGet
    rw [foldl_jsSet_const]
    by_cases hm : v ∈ g.nodes
    · rw [if_pos hm]
      rfl
    · rw [if_neg hm]
      rfl

theorem dijkstraInit_prev (g : Graph) (s v : String) :
    jsGet (dijkstraInit g s).previous v =
      if v ∈ g.nodes then some none else none := by
  unfold dijkstraInit
  dsimp only
  rw [foldl_jsSet_const]
  by_cases hm : v ∈ g.nodes
  · rw [if_pos hm, if_pos hm]
  · rw [if_neg hm, if_neg hm]
    rfl

theorem dijkstraInit_DInv {g : Graph} {s : String} (hs : s ∈ g.nodes) :
    DInv g s (dijkstraInit g s) := by
  refine { qNodup := ?_, qLive := ?_, visLive := ?_, visNodup := ?_,
           qVis := ?_, sQV := ?_, sDist := ?_, sPrev := ?_, prevDom := ?_,
           inftyOut := ?_, qFinite := ?_, visFinite := ?_, distNonneg := ?_,
           prevSome := ?_, vNotS := ?_, visitedOpt := ?_, frontier := ?_ }
  · exact List.nodup_singleton s
  · intro v hv
    rw [List.mem_singleton.mp hv]
    exact hs
  · intro v hv
    exact absurd hv (List.not_mem_nil v)
  · exact List.nodup_nil
  · intro v hv hvv
    exact absurd hvv (List.not_mem_nil v)
  · exact Or.inl (List.mem_singleton_self s)
  · rw [dijkstraInit_dGet, if_pos rfl]
  · rw [dijkstraInit_prev, if_pos hs]
  · intro v hv
    rw [dijkstraInit_prev, if_pos hv]
    rfl
  · intro v hvq hvv
    have hvs : ¬ v = s := fun hh => hvq (List.mem_singleton.mpr hh)
    rw [dijkstraInit_dGet, if_neg hvs]
  · intro v hv
    rw [dijkstraInit_dGet, if_pos (List.mem_singleton.mp hv)]
    simp
  · intro v hv
    exact absurd hv (List.not_mem_nil v)
  · intro v
    rw [dijkstraInit_dGet]
    by_cases hv : v = s
    · rw [if_pos hv]
    · rw [if_neg hv]
      exact le_top
  · intro v u hvu
    rw [dijkstraInit_prev] at hvu
    by_cases hv : v ∈ g.nodes
    · rw [if_pos hv] at hvu
      injection hvu with hvu2
      exact Option.noConfusion hvu2
    · rw [if_neg hv] at hvu
      exact Option.noConfusion hvu
  · intro v hvs hv
    rcases hv with h | h
    · exact absurd (List.mem_singleton.mp h) hvs
    · exact absurd h (List.not_mem_nil v)
  · intro v hv
    exact absurd hv (List.not_mem_nil v)
  · intro u hu
    exact absurd hu (List.not_mem_nil u)

theorem dijkstraInit_measure {g : Graph} (hWF : WF g) {s : String}
    (hs : s ∈ g.nodes) :
    dMeasure g (dijkstraInit g s) < 2 * g.nodes.length + 1 := by
  unfold dMeasure dijkstraInit
  dsimp only
  have hsub : (g.nodes.toFinset \ ({s} : Finset String)).card <
      g.nodes.toFinset.card := by
    refine Finset.card_lt_card (Finset.sdiff_ssubset ?_ ?_)
    · exact Finset.singleton_subset_iff.mpr (List.mem_toFinset.mpr hs)
    · exact Finset.singleton_nonempty s
  have hlen : g.nodes.toFinset.card = g.nodes.length :=
    List.toFinset_card_of_nodup (nodes_nodup hWF)
  have hfin : ((g.nodes.toFinset \ ([] : List String).toFinset) \
      ([s] : List String).toFinset).card =
      (g.nodes.toFinset \ ({s} : Finset String)).card := by
    simp
  rw [hfin]
  have hone : ([s] : List String).length = 1 := rfl
  rw [hone]
  omega

/-! ### Dijkstra: the unreached-target exit -/

theorem dijkstra_noreach_nopath {g : Graph} {s e : String} {st : DState}
    (hInv : DInv g s st) (hqnil : st.queue = []) (hnvis : e ∉ st.visited) :
    ¬∃ p, g.isPath p s e := by
  have hsvis : s ∈ st.visited :=
    hInv.sQV.resolve_left (by rw [hqnil]; exact List.not_mem_nil s)
  rintro ⟨p, hp⟩
  obtain ⟨x, y, p₁, p₂, _, hp₁, hx, hy, hxy, hp₂⟩ :=
    isPath_decompose st.visited p s e hp hsvis hnvis
  have hfr := hInv.frontier x hx y hxy hy
  have hyfin : dGet st.distances y ≠ ⊤ := by
    intro hh
    rw [hh] at hfr
    rcases WithTop.add_eq_top.mp (top_le_iff.mp hfr) with h | h
    · exact hInv.visFinite x hx h
    · exact wGet_ne_top_of_hasLink hxy h
  exact hyfin (hInv.inftyOut y (by rw [hqnil]; exact List.not_mem_nil y) hy)

theorem dijkstra_noreach_ne {g : Graph} {s e : String} {st : DState}
    (hInv : DInv g s st) (hqnil : st.queue = []) (hnvis : e ∉ st.visited) :
    ¬ e = s := by
  have hsvis : s ∈ st.visited :=
    hInv.sQV.resolve_left (by rw [hqnil]; exact List.not_mem_nil s)
  intro hh
  exact hnvis (hh ▸ hsvis)

theorem dijkstra_noreach_prev {g : Graph} {s e : String} {st : DState}
    (hInv : DInv g s st) (hem : e ∈ g.nodes) (hqnil : st.queue = [])
    (hnvis : e ∉ st.visited) : jsGet st.previous e = some none := by
  have hd := hInv.prevDom e hem
  cases hpe : jsGet st.previous e with
  | none =>
      rw [hpe] at hd
      simp at hd
  | some o =>
      cases o with
      | none => rfl
      | some u =>
          obtain ⟨_, _, _, hqv, _, _⟩ := hInv.prevSome e u hpe
          rcases hqv with h | h
          · rw [hqnil] at h
            exact absurd h (List.not_mem_nil e)
          · exact absurd h hnvis

/-- C3: on a graph whose stored weights are all non-negative, for live keys
`s` and `e`, `dijkstra(s, e)` returns a distance that lower-bounds the weight
of every path from `s` to `e`; the returned node list is empty exactly when
no path from `s` to `e` exists, equivalently exactly when the returned
distance is `Infinity`; and a non-empty returned list is itself a path from
`s` to `e` whose weight equals the returned distance.  Together these say
the returned distance is the minimum path weight over all paths from `s` to
`e` and the returned path attains it. -/
theorem c3_dijkstra_optimal (g : Graph) (hWF : WF g) (hNN : NonnegWeights g)
    (s e : String) (hs : g.hasNode s = true) (he : g.hasNode e = true) :
    (∀ p, g.isPath p s e → (g.dijkstra s e).2 ≤ g.pathWeight p) ∧
    ((g.dijkstra s e).1 = [] ↔ ¬∃ p, g.isPath p s e) ∧
    ((g.dijkstra s e).2 = ⊤ ↔ ¬∃ p, g.isPath p s e) ∧
    ((g.dijkstra s e).1 ≠ [] →
      g.isPath (g.dijkstra s e).1 s e ∧
      g.pathWeight (g.dijkstra s e).1 = (g.dijkstra s e).2) := by
  have hsm : s ∈ g.nodes := (hWF.hasNode_iff_mem_nodes s).mp hs
  have hem : e ∈ g.nodes := (hWF.hasNode_iff_mem_nodes e).mp he
  obtain ⟨hBase, hmode⟩ := dijkstraLoop_spec hWF hNN e
    (2 * g.nodes.length + 1) (dijkstraInit g s) (dijkstraInit_DInv hsm)
    (dijkstraInit_measure hWF hsm)
  have hdij : g.dijkstra s e =
      (match buildPath (dijkstraLoop g e (2 * g.nodes.length + 1)
          (dijkstraInit g s)).previous (g.nodes.length + 1) e [] with
      | none => (([] : List String), (⊤ : WithTop ℚ))
      | some path =>
          if path.head? ≠ some s then (([] : List String), (⊤ : WithTop ℚ))
          else (path, dGet (dijkstraLoop g e (2 * g.nodes.length + 1)
              (dijkstraInit g s)).distances e)) := by
    unfold Graph.dijkstra
    rw [if_neg (by simp [hs, he])]
  rcases hmode with hvis | ⟨hqnil, hnvis, hInvF⟩
  · have hidx : (dijkstraLoop g e (2 * g.nodes.length + 1)
        (dijkstraInit g s)).visited.indexOf e < g.nodes.length + 1 := by
      have h1 := List.indexOf_lt_length.mpr hvis
      have h2 := visited_le_nodes hBase
      omega
    obtain ⟨q, hbp, hpath, hwt⟩ :=
      buildPath_spec hBase (g.nodes.length + 1) e [] hvis hidx
    rw [List.append_nil] at hbp
    obtain ⟨hq1, hq2, hq3⟩ := hpath
    rw [hdij, hbp]
    dsimp only
    rw [if_neg (not_not_intro hq1)]
    refine ⟨?_, ?_, ?_, ?_⟩
    · intro p hp
      exact hBase.visitedOpt e hvis p hp
    · constructor
      · intro hq
        exact absurd hq
          (isPath_ne_nil (g := g) (a := s) (b := e) ⟨hq1, hq2, hq3⟩)
      · intro hnp
        exact absurd ⟨q, hq1, hq2, hq3⟩ hnp
    · constructor
      · intro htop
        exact absurd htop (hBase.visFinite e hvis)
      · intro hnp
        exact absurd ⟨q, hq1, hq2, hq3⟩ hnp
    · intro _
      exact ⟨⟨hq1, hq2, hq3⟩, hwt⟩
  · have hnp := dijkstra_noreach_nopath hInvF hqnil hnvis
    have hes := dijkstra_noreach_ne hInvF hqnil hnvis
    have hprev := dijkstra_noreach_prev hInvF hem hqnil hnvis
    rw [hdij, buildPath_root hprev g.nodes.length []]
    dsimp only
    rw [if_pos (by simp [hes])]
    refine ⟨?_, ?_, ?_, ?_⟩
    · intro p hp
      exact absurd ⟨p, hp⟩ hnp
    · exact ⟨fun _ => hnp, fun _ => rfl⟩
    · exact ⟨fun _ => hnp, fun _ => rfl⟩
    · intro hcon
      exact absurd rfl hcon

/-- C3 witness: the weighted directed graph `wGraph` (`s→m` weight 2,
`m→t` weight 3, `s→t` weight 7) with endpoints `s` and `t`. -/
theorem c3_dijkstra_optimal_witness :
    (WF wGraph ∧ NonnegWeights wGraph ∧
      wGraph.hasNode "s" = true ∧ wGraph.hasNode "t" = true) ∧
    ((wGraph.dijkstra "s" "t").1 = [] ↔
      ¬∃ p, wGraph.isPath p "s" "t") :=
  have hWF : WF wGraph :=
    ⟨by decide, by decide, by decide, by decide, by decide,
     by decide, by decide, by decide, by decide, by decide⟩
  have hNN : NonnegWeights wGraph :=
    show ∀ p ∈ wGraph.links, ∀ q ∈ p.2, (0 : ℚ) ≤ q.2 by decide
  ⟨⟨hWF, hNN, by decide, by decide⟩,
    (c3_dijkstra_optimal wGraph hWF hNN "s" "t" (by decide) (by decide)).2.1⟩

/-- C9 witness: the concrete tagged graph `c9Graph` with key `a`. -/
theorem c9_removeNode_keeps_mainNodes_witness :
    (c9Graph.hasNode "a" = true ∧ "a" ∈ c9Graph.getMainNodes) ∧
    ((c9Graph.removeNode "a").2 = true ∧
      ((c9Graph.removeNode "a").1).mainNodes = c9Graph.mainNodes ∧
      "a" ∈ ((c9Graph.removeNode "a").1).getMainNodes ∧
      "a" ∈ ((((c9Graph.removeNode "a").1).addNode "a").1).getMainNodes) :=
  ⟨⟨by decide, by decide⟩,
    c9_removeNode_keeps_mainNodes c9Graph "a" (by decide) (by decide)⟩

/-- C4: the four named constructors of `index.js` do not produce the four
distinct `(directed, weighted)` combinations: `UndirectedUnweightedGraph` is
built with `createGraph(false, true)`, so its `type()` reports
`weighted: true` — the same configuration as `UndirectedWeightedGraph` — and
the `{false, false}` combination is produced by no constructor. -/
theorem c4_constructor_flags :
    (UndirectedUnweightedGraph ()).type = { weighted := true, directed := false } ∧
    (DirectedUnweightedGraph ()).type = { weighted := false, directed := true } ∧
    (DirectedWeightedGraph ()).type = { weighted := true, directed := true } ∧
    (UndirectedWeightedGraph ()).type = { weighted := true, directed := false } := by
  decide

/-- C1: on the undirected graph with links `a–b`, `a–c`, `c–b`,
`findAllPaths("a","b")` returns only `[["a","b"]]`, although `["a","c","b"]`
is a simple path from `a` to `b` (its links exist and it repeats no node).
The early return on reaching the target skips the cleanup, so the target
stays in the shared visited set and buffer: the residual state after the
top-level call still holds `b`. -/
theorem c1_findAllPaths_incomplete :
    c1Graph.findAllPaths "a" "b" = [["a", "b"]] ∧
    c1Graph.hasLink "a" "c" = true ∧
    c1Graph.hasLink "c" "b" = true ∧
    (["a", "c", "b"] : List String).Nodup ∧
    ["a", "c", "b"] ∉ c1Graph.findAllPaths "a" "b" ∧
    (c1Graph.findAllPathsAux "b" (c1Graph.nodes.length + 1) "a"
        { visited := [], path := [] }).2.visited = ["b"] := by
  decide

/-- C2: in the directed graph with the single link `a → b`, `removeNode("b")`
succeeds and deletes `b`'s identity mappings, but the incoming link from `a`
(a node `b` had no outgoing link to) is not removed: `a`'s adjacency row
still stores id `1`, which maps to no node, and `connectedWith("a")` now
yields a JS-`undefined` neighbour. -/
theorem c2_removeNode_dangling :
    (c2Graph.removeNode "b").2 = true ∧
    ((c2Graph.removeNode "b").1).hasNode "b" = false ∧
    ((c2Graph.removeNode "b").1).links = [(0, [(1, 1)])] ∧
    jsGet ((c2Graph.removeNode "b").1).idToKeyTable 1 = none ∧
    ((c2Graph.removeNode "b").1).connectedWith "a" = some [none] := by
  decide

/-- C5 counterexample: nodes `a`, `b`, `c` get ids 0, 1, 2; the links are
created in the order `c–b` then `c–a`, so the insertion order of `c`'s row
entries is `b` before `a`, yet `connectedWith("c")` returns `["a","b"]`
(ascending id order), not the insertion order `["b","a"]`. -/
theorem c5_counterexample :
    c5Graph.connectedWith "c" = some [some "a", some "b"] ∧
    c5Graph.connectedWith "c" ≠ some [some "b", some "a"] := by
  decide

/-- C6 counterexample: on an unweighted graph, `addLink("a","b", NaN)` supplies
an explicit weight that is not a finite number, yet no error is raised: the
weight is forced to `1` before validation, the call returns `true`, and the
link is stored. -/
theorem c6_counterexample :
    (Graph.new false false).addLink "a" "b" (JSValue.number JSNumber.nan) =
      AddLinkResult.ok
        { isDirected := false, isWeighted := false, counterId := 2,
          keyToIdTable := [("a", 0), ("b", 1)],
          idToKeyTable := [(0, "a"), (1, "b")],
          links := [(0, [(1, 1)]), (1, [(0, 1)])], mainNodes := [] } true := by
  decide

/-- C6 (amended): `addLink` throws exactly when the graph is weighted, the
keys are distinct, the link does not already exist, and an explicit
non-finite-number weight is supplied; a throw leaves the graph unmutated, and
a self-loop or existing link returns `false` without raising and without
mutation. -/
theorem c6_addLink_throw_spec (g : Graph) (k1 k2 : String) (w : JSValue) :
    (∀ g', g.addLink k1 k2 w = .thrown g' → g' = g) ∧
    ((∃ g', g.addLink k1 k2 w = .thrown g') ↔
      (g.isWeighted = true ∧ k1 ≠ k2 ∧ g.hasLink k1 k2 = false ∧
        w ≠ JSValue.undefined ∧ w.isFiniteNumber = false)) ∧
    ((k1 = k2 ∨ g.hasLink k1 k2 = true) → g.addLink k1 k2 w = .ok g false) := by
  unfold Graph.addLink
  by_cases h12 : k1 = k2
  · simp [h12]
  · by_cases hex : g.hasLink k1 k2
    · simp [h12, hex]
    · by_cases hw : g.isWeighted
      · by_cases hu : w = JSValue.undefined
        · subst hu
          simp [h12, hex, hw]
        · match w with
          | .undefined => exact absurd rfl hu
          | .number (.finite q) =>
              simp [h12, hex, hw, hu, JSValue.isFiniteNumber]
          | .number .nan =>
              simp [h12, hex, hw, hu, JSValue.isFiniteNumber]
          | .number .infinity =>
              simp [h12, hex, hw, hu, JSValue.isFiniteNumber]
          | .number .negInfinity =>
              simp [h12, hex, hw, hu, JSValue.isFiniteNumber]
          | .other =>
              simp [h12, hex, hw, hu, JSValue.isFiniteNumber]
      · simp only [Bool.not_eq_true] at hw
        simp [h12, hex, hw]

end Graphijs
